import Mathlib

/-!
Verification of the command resolution and execution core of a CLI client
(`src/cli/Cli.ts`): command loading, option-descriptor extraction, option
validation, dispatch, and output rendering.

JavaScript runtime values are shallowly embedded as `JsValue` (numbers are
modelled as integers, which is the only numeric shape the claims exercise;
strings are Lean strings standing for the JS string values).  External
collaborators of the core (the `jmespath.search` query engine and the
`easy-table` renderer) are passed in as function parameters; the JSON
serializer `JSON.stringify` and the deserializer `JSON.parse` are modelled
explicitly below.
-/

/-! ## Characters and digits -/

def isWsCh (c : Char) : Bool :=
  c = ' ' || c = '\n' || c = '\t' || c = '\r'

def isDigitCh (c : Char) : Bool :=
  '0' ≤ c && c ≤ '9'

def digitCh (d : Nat) : Char := Char.ofNat (48 + d)

def digVal (c : Char) : Nat := c.toNat - 48

def hexCh (d : Nat) : Char :=
  if d < 10 then Char.ofNat (48 + d) else Char.ofNat (87 + d)

def hexVal (c : Char) : Option Nat :=
  if '0' ≤ c ∧ c ≤ '9' then some (c.toNat - 48)
  else if 'a' ≤ c ∧ c ≤ 'f' then some (c.toNat - 87)
  else if 'A' ≤ c ∧ c ≤ 'F' then some (c.toNat - 55)
  else none

/-- Decimal digits of `n`, least significant first; `fuel`-bounded so the
definition is structural (any `fuel ≥ n` yields the digits). -/
def digitsRev : Nat → Nat → List Nat
  | 0, _ => []
  | fuel + 1, n => if n = 0 then [] else (n % 10) :: digitsRev fuel (n / 10)

/-- Decimal rendering of a natural number, as JavaScript's `toString` gives it. -/
def natToChars (n : Nat) : List Char :=
  if n = 0 then ['0'] else ((digitsRev n n).reverse.map digitCh)

/-- Decimal rendering of an integer. -/
def intChars : Int → List Char
  | Int.ofNat m => natToChars m
  | Int.negSucc m => '-' :: natToChars (m + 1)

/-- Consume a run of decimal digits, folding them onto `acc`. -/
def parseNatChars : List Char → Nat → Nat × List Char
  | [], acc => (acc, [])
  | c :: cs, acc =>
    if isDigitCh c then parseNatChars cs (acc * 10 + digVal c) else (acc, c :: cs)

def skipWs (cs : List Char) : List Char := cs.dropWhile isWsCh

def allWs (cs : List Char) : Bool := cs.all isWsCh

/-- `true` when the list does not begin with a decimal digit (so a decimal
number ending right before it cannot absorb its first character). -/
def noDigitHead : List Char → Bool
  | [] => true
  | c :: _ => !isDigitCh c

/-- Substring test: does `needle` occur inside `hay`? -/
def containsChars (needle hay : List Char) : Bool :=
  (List.range (hay.length + 1)).any (fun i => needle.isPrefixOf (hay.drop i))

def containsSub (needle hay : String) : Bool :=
  containsChars needle.toList hay.toList

def startsWithStr (s pre : String) : Bool :=
  pre.toList.isPrefixOf s.toList

def endsWithStr (s suf : String) : Bool :=
  suf.toList.isSuffixOf s.toList

/-- `String.drop` over the character list (JS strings index by code unit;
all strings the claims touch are ASCII, where the two agree). -/
def dropStr (s : String) (n : Nat) : String := String.mk (s.toList.drop n)

/-- Join with a separator, as JavaScript's `Array.prototype.join`. -/
def joinSep (sep : String) : List String → String
  | [] => ""
  | [s] => s
  | s :: ss => s ++ sep ++ joinSep sep ss

/-- The platform line separator `os.EOL` (POSIX). -/
def osEOL : String := "\n"

/-! ## JavaScript values -/

/-- A JavaScript runtime value.  `date` carries the `toString` rendering and
the `toJSON` (ISO) rendering of the `Date`, the two ways the renderer can
serialize one.  Numbers are modelled as integers. -/
inductive JsValue where
  | undefined
  | null
  | boolean (b : Bool)
  | num (n : Int)
  | str (s : String)
  | arr (elems : List JsValue)
  | obj (fields : List (String × JsValue))
  | date (toStr : String) (toJson : String)

/-- The JavaScript strict equality `v === 'json'`. -/
def isJsonStr : JsValue → Bool
  | .str s => s = "json"
  | _ => false

/-- The JavaScript test `typeof v === 'undefined'` (on values). -/
def isUndefined : JsValue → Bool
  | .undefined => true
  | _ => false

/-- The JavaScript `typeof` operator (`typeof null` is `"object"`). -/
def jsTypeof : JsValue → String
  | .undefined => "undefined"
  | .boolean _ => "boolean"
  | .num _ => "number"
  | .str _ => "string"
  | .null | .arr _ | .obj _ | .date _ _ => "object"

/-- JavaScript truthiness. -/
def truthy : JsValue → Bool
  | .undefined | .null => false
  | .boolean b => b
  | .num n => !(n = 0 : Bool)
  | .str s => !(s = "" : Bool)
  | .arr _ | .obj _ | .date _ _ => true

mutual
/-- Size of a value, used as parser fuel. -/
def sizeV : JsValue → Nat
  | .arr xs => sizeL xs + 1
  | .obj fs => sizeF fs + 1
  | _ => 1

def sizeL : List JsValue → Nat
  | [] => 1
  | x :: xs => sizeV x + sizeL xs + 1

def sizeF : List (String × JsValue) → Nat
  | [] => 1
  | (_, v) :: fs => sizeV v + sizeF fs + 1
end

mutual
/-- A value is JSON-representable when it contains no `undefined` and no
`Date` anywhere (`JSON.stringify` drops or rewrites those, so only such
values can round-trip). -/
def jsonOk : JsValue → Bool
  | .undefined => false
  | .date _ _ => false
  | .arr xs => jsonOkL xs
  | .obj fs => jsonOkF fs
  | _ => true

def jsonOkL : List JsValue → Bool
  | [] => true
  | x :: xs => jsonOk x && jsonOkL xs

def jsonOkF : List (String × JsValue) → Bool
  | [] => true
  | (_, v) :: fs => jsonOk v && jsonOkF fs
end

/-! ## JSON string escaping (`QuoteJSONString`) -/

/-- The escape `JSON.stringify` applies to one character of a string. -/
def escChar (c : Char) : List Char :=
  if c = '"' then ['\\', '"']
  else if c = '\\' then ['\\', '\\']
  else if c = '\n' then ['\\', 'n']
  else if c = '\r' then ['\\', 'r']
  else if c = '\t' then ['\\', 't']
  else if c = Char.ofNat 8 then ['\\', 'b']
  else if c = Char.ofNat 12 then ['\\', 'f']
  else if c.toNat < 32 then ['\\', 'u', '0', '0', hexCh (c.toNat / 16), hexCh (c.toNat % 16)]
  else [c]

def escChars : List Char → List Char
  | [] => []
  | c :: cs => escChar c ++ escChars cs

/-- `JSON.stringify`'s rendering of a string: quoted and escaped. -/
def quoteChars (s : String) : List Char :=
  '"' :: escChars s.toList ++ ['"']

/-- Decoding of a single-character escape in a JSON string. -/
def unescCh (e : Char) : Option Char :=
  if e = '"' then some '"'
  else if e = '\\' then some '\\'
  else if e = '/' then some '/'
  else if e = 'n' then some '\n'
  else if e = 'r' then some '\r'
  else if e = 't' then some '\t'
  else if e = 'b' then some (Char.ofNat 8)
  else if e = 'f' then some (Char.ofNat 12)
  else none

/-- Parse the body of a JSON string (after the opening quote) up to and
including the closing quote; `acc` holds parsed characters reversed. -/
def parseStringBody : List Char → List Char → Option (String × List Char)
  | [], _ => none
  | c :: rest, acc =>
    if c = '"' then some (String.mk acc.reverse, rest)
    else if c = '\\' then
      match rest with
      | [] => none
      | e :: rest2 =>
        if e = 'u' then
          match rest2 with
          | h1 :: h2 :: h3 :: h4 :: rest3 =>
            match hexVal h1, hexVal h2, hexVal h3, hexVal h4 with
            | some a, some b, some c', some d =>
              parseStringBody rest3 (Char.ofNat (((a * 16 + b) * 16 + c') * 16 + d) :: acc)
            | _, _, _, _ => none
          | _ => none
        else
          match unescCh e with
          | some d => parseStringBody rest2 (d :: acc)
          | none => none
    else parseStringBody rest (c :: acc)

/-! ## `JSON.stringify` -/

/-- Comma-join pieces (compact form). -/
def joinComma : List (List Char) → List Char
  | [] => []
  | [p] => p
  | p :: ps => p ++ ',' :: joinComma ps

mutual
/-- `JSON.stringify(v)` (no indentation), as a character list; `none` models
the call returning `undefined`.  Fields whose value serializes to `undefined`
are dropped; array elements that would are rendered `null`; `Date` values
serialize through `toJSON`. -/
def compactV : JsValue → Option (List Char)
  | .undefined => none
  | .null => some ['n', 'u', 'l', 'l']
  | .boolean b => some (if b then ['t', 'r', 'u', 'e'] else ['f', 'a', 'l', 's', 'e'])
  | .num n => some (intChars n)
  | .str s => some (quoteChars s)
  | .date _ j => some (quoteChars j)
  | .arr xs => some ('[' :: joinComma (compactItems xs) ++ [']'])
  | .obj fs => some ('{' :: joinComma (compactMembers fs) ++ ['}'])

def compactItems : List JsValue → List (List Char)
  | [] => []
  | x :: xs => ((compactV x).getD ['n', 'u', 'l', 'l']) :: compactItems xs

def compactMembers : List (String × JsValue) → List (List Char)
  | [] => []
  | (k, v) :: fs =>
    match compactV v with
    | some cv => (quoteChars k ++ ':' :: cv) :: compactMembers fs
    | none => compactMembers fs
end

/-- `JSON.stringify(v)` as a string (`"undefined"` only where the JS value
would be interpolated, which callers below handle explicitly). -/
def compactStr (v : JsValue) : Option String :=
  (compactV v).map String.mk

/-- Indentation of `2 * d` spaces, the gap `JSON.stringify(v, null, 2)` uses
at nesting depth `d`. -/
def indentChars (d : Nat) : List Char := List.replicate (2 * d) ' '

/-- Join already-rendered members/items at depth `d`: each on its own line,
indented, comma-separated. -/
def joinIndented (d : Nat) : List (List Char) → List Char
  | [] => []
  | [p] => indentChars d ++ p
  | p :: ps => indentChars d ++ p ++ ',' :: '\n' :: joinIndented d ps

mutual
/-- `JSON.stringify(v, null, 2)` at nesting depth `d`, as a character list;
`none` models the call returning `undefined`. -/
def prettyV (d : Nat) : JsValue → Option (List Char)
  | .undefined => none
  | .null => some ['n', 'u', 'l', 'l']
  | .boolean b => some (if b then ['t', 'r', 'u', 'e'] else ['f', 'a', 'l', 's', 'e'])
  | .num n => some (intChars n)
  | .str s => some (quoteChars s)
  | .date _ j => some (quoteChars j)
  | .arr xs =>
    some
      (match prettyItems (d + 1) xs with
       | [] => ['[', ']']
       | parts => '[' :: '\n' :: (joinIndented (d + 1) parts ++ '\n' :: (indentChars d ++ [']'])))
  | .obj fs =>
    some
      (match prettyMembers (d + 1) fs with
       | [] => ['{', '}']
       | parts => '{' :: '\n' :: (joinIndented (d + 1) parts ++ '\n' :: (indentChars d ++ ['}'])))

def prettyItems (d : Nat) : List JsValue → List (List Char)
  | [] => []
  | x :: xs => ((prettyV d x).getD ['n', 'u', 'l', 'l']) :: prettyItems d xs

def prettyMembers (d : Nat) : List (String × JsValue) → List (List Char)
  | [] => []
  | (k, v) :: fs =>
    match prettyV d v with
    | some cv => (quoteChars k ++ ':' :: ' ' :: cv) :: prettyMembers d fs
    | none => prettyMembers d fs
end

/-! ## A reference JSON parser

Modelled from the spec: the deserializer (`JSON.parse`) the rendering
idempotence property measures the serialized text against.  `fuel` bounds
the nesting depth the parser will enter (any fuel at least the size of the
value suffices, as proved below). -/

mutual
def parseValue : Nat → List Char → Option (JsValue × List Char)
  | 0, _ => none
  | fuel + 1, cs0 =>
    match skipWs cs0 with
    | [] => none
    | c :: cs1 =>
      if c = '[' then
        match skipWs cs1 with
        | [] => none
        | d :: cs2 =>
          if d = ']' then some (.arr [], cs2)
          else
            match parseElems fuel cs1 with
            | some (xs, rest) => some (.arr xs, rest)
            | none => none
      else if c = '{' then
        match skipWs cs1 with
        | [] => none
        | d :: cs2 =>
          if d = '}' then some (.obj [], cs2)
          else
            match parseFields fuel cs1 with
            | some (fs, rest) => some (.obj fs, rest)
            | none => none
      else if c = '"' then
        match parseStringBody cs1 [] with
        | some (s, rest) => some (.str s, rest)
        | none => none
      else if c = 't' then
        match cs1 with
        | 'r' :: 'u' :: 'e' :: rest => some (.boolean true, rest)
        | _ => none
      else if c = 'f' then
        match cs1 with
        | 'a' :: 'l' :: 's' :: 'e' :: rest => some (.boolean false, rest)
        | _ => none
      else if c = 'n' then
        match cs1 with
        | 'u' :: 'l' :: 'l' :: rest => some (.null, rest)
        | _ => none
      else if c = '-' then
        match cs1 with
        | [] => none
        | d :: cs2 =>
          if isDigitCh d then
            let p := parseNatChars cs2 (digVal d)
            some (.num (-(p.1 : Int)), p.2)
          else none
      else if isDigitCh c then
        let p := parseNatChars cs1 (digVal c)
        some (.num (p.1 : Int), p.2)
      else none

def parseElems : Nat → List Char → Option (List JsValue × List Char)
  | 0, _ => none
  | fuel + 1, cs =>
    match parseValue fuel cs with
    | none => none
    | some (v, cs1) =>
      match skipWs cs1 with
      | [] => none
      | c :: cs2 =>
        if c = ',' then
          match parseElems fuel cs2 with
          | some (vs, rest) => some (v :: vs, rest)
          | none => none
        else if c = ']' then some ([v], cs2)
        else none

def parseFields : Nat → List Char → Option (List (String × JsValue) × List Char)
  | 0, _ => none
  | fuel + 1, cs =>
    match skipWs cs with
    | [] => none
    | c :: cs1 =>
      if c = '"' then
        match parseStringBody cs1 [] with
        | none => none
        | some (k, cs2) =>
          match skipWs cs2 with
          | [] => none
          | d :: cs3 =>
            if d = ':' then
              match parseValue fuel cs3 with
              | none => none
              | some (v, cs4) =>
                match skipWs cs4 with
                | [] => none
                | e :: cs5 =>
                  if e = ',' then
                    match parseFields fuel cs5 with
                    | some (fs, rest) => some ((k, v) :: fs, rest)
                    | none => none
                  else if e = '}' then some ([(k, v)], cs5)
                  else none
            else none
      else none
end

/-- Modelled from the spec: `JSON.parse`, requiring nothing but whitespace
after the parsed value. -/
def jsonParse (fuel : Nat) (s : String) : Option JsValue :=
  match parseValue fuel s.toList with
  | some (v, rest) => if skipWs rest = [] then some v else none
  | none => none

/-! ## Option declaration parsing (`Cli.getCommandOptions`) -/

/-- Separators of the declaration-splitting regex `/[ ,|]+/`. -/
def isSepCh (c : Char) : Bool := c = ' ' || c = ',' || c = '|'

/-- Maximal runs of non-separator characters (`acc` holds the current run
reversed). -/
def jsSplitChunks : List Char → List Char → List String
  | [], acc => if acc.isEmpty then [] else [String.mk acc.reverse]
  | c :: cs, acc =>
    if isSepCh c then
      if acc.isEmpty then jsSplitChunks cs [] else String.mk acc.reverse :: jsSplitChunks cs []
    else jsSplitChunks cs (c :: acc)

/-- JavaScript's `s.split(/[ ,|]+/)`: maximal separator runs split the
string; a leading or trailing run contributes an empty piece. -/
def jsSplit (s : String) : List String :=
  match s.toList with
  | [] => [""]
  | c :: _ =>
    (if isSepCh c then [""] else [])
      ++ jsSplitChunks s.toList []
      ++ (match s.toList.getLast? with
          | some d => if isSepCh d then [""] else []
          | none => [])

/-- One raw option declaration as a command supplies it: the declaration
string (e.g. `"-u, --webUrl <webUrl>"`) and the autocomplete hint. -/
structure OptionDecl where
  option : String
  autocomplete : Option (List String)
deriving DecidableEq

/-- The normalized Option Descriptor (`CliCommandOption`). -/
structure CommandOption where
  autocomplete : Option (List String)
  long : Option String
  name : String
  required : Bool
  short : Option String
deriving DecidableEq

/-- State of the token scan deriving `short`/`long`/`name`. -/
structure ScanState where
  short : Option String
  long : Option String
  name : String
deriving DecidableEq

/-- One step of the token scan in `getCommandOptions`: a token starting
`--` sets `long` and `name`; otherwise a token starting `-` sets `short`
and `name`; other tokens are ignored. -/
def scanToken (st : ScanState) (o : String) : ScanState :=
  if startsWithStr o "--" then { st with long := some (dropStr o 2), name := dropStr o 2 }
  else if startsWithStr o "-" then { st with short := some (dropStr o 1), name := dropStr o 1 }
  else st

/-- `Cli.getCommandOptions`, for one declaration: split on `/[ ,|]+/`, scan
tokens, mark required when the declaration contains `<`. -/
def parseOptionDecl (decl : OptionDecl) : CommandOption :=
  let required := decl.option.toList.contains '<'
  let optionArgs := jsSplit decl.option
  let st := optionArgs.foldl scanToken ⟨none, none, ""⟩
  { autocomplete := decl.autocomplete, long := st.long, name := st.name,
    required := required, short := st.short }

/-! ## Commands -/

/-- The parsed options map (minimist's `ParsedArgs`): keys in insertion
order with their values; `_` is the positional catch-all key. -/
def OptionsMap := List (String × JsValue)

/-- Property access `opts[k]` on the parsed options (absent keys read as
`undefined`). -/
def getOpt (opts : OptionsMap) (k : String) : JsValue :=
  match List.find? (fun p => p.1 == k) opts with
  | some p => p.2
  | none => .undefined

/-- Modelled from the spec: the `CommandError` a command hands to its
completion callback — a message plus an optional command-supplied numeric
exit code (the class itself lives outside the sampled sources; its two
fields are exactly the ones `Cli.closeWithError` reads). -/
structure CommandError where
  message : String
  code : Option Nat
deriving DecidableEq

/-- Modelled from the spec: the executable command object (the `Command`
base class lives outside the sampled sources).  Only the capabilities the
core consumes appear: `name`, `alias()` (field `aliases`), `options()`,
`allowUnknownOptions()`,
`validate()` (whose runtime result the core type-tests, hence `JsValue`),
and `action()` modelled by the value it passes to the completion callback. -/
structure Command where
  name : String
  aliases : Option (List String)
  optionDecls : List OptionDecl
  allowUnknownOptions : Bool
  validate : Option (OptionsMap → JsValue)
  action : OptionsMap → Option CommandError

/-- `Cli.getCommandOptions` over a command's declarations. -/
def getCommandOptions (c : Command) : List CommandOption :=
  c.optionDecls.map parseOptionDecl

/-- The Command Descriptor (`CliCommandInfo`). -/
structure CommandInfo where
  aliases : Option (List String)
  name : String
  command : Command
  options : List CommandOption

/-- `Cli.loadCommand`: the descriptor registered for a loaded command. -/
def mkCommandInfo (c : Command) : CommandInfo :=
  { aliases := c.aliases, name := c.name, command := c, options := getCommandOptions c }

/-! ## The Command Loader (`Cli.loadCommandFromArgs`, `Cli.loadAllCommands`) -/

/-- Outcome of `require`-ing a file: it can throw, evaluate to something
that is not `instanceof Command`, or evaluate to a command. -/
inductive LoadResult where
  | throws (e : String)
  | notCommand
  | command (c : Command)

def isCommandLoad : LoadResult → Bool
  | .command _ => true
  | _ => false

def isThrowsLoad : LoadResult → Bool
  | .throws _ => true
  | _ => false

/-- The file-system and module-system collaborators of the Loader:
`fs.existsSync`, `require`, and the `readdirR` listing of the commands
directory. -/
structure LoadEnv where
  rootFolder : String
  fileExists : String → Bool
  load : String → LoadResult
  files : List String

/-- `path.join` over simple segments (POSIX separator). -/
def pathJoin (parts : List String) : String := joinSep "/" parts

/-- The candidate file path `Cli.loadCommandFromArgs` computes from the
positional words (the zero-word case never reaches this computation). -/
def commandFilePath (rootFolder : String) (words : List String) : String :=
  match words with
  | [] => ""
  | [w] => pathJoin [rootFolder, "m365", "commands", w ++ ".js"]
  | [w1, w2] => pathJoin [rootFolder, "m365", w1, "commands", w1 ++ "-" ++ w2 ++ ".js"]
  | w1 :: w2 :: rest =>
    pathJoin [rootFolder, "m365", w1, "commands", w2, joinSep "-" (w2 :: rest) ++ ".js"]

/-- The full-discovery file filter: inside a `commands` path segment, a
`.js` file, not a `.spec.js` test artifact. -/
def isLoadableFile (f : String) : Bool :=
  containsSub "/commands/" f && endsWithStr f ".js" && !endsWithStr f ".spec.js"

/-- `Cli.loadAllCommands`: walk the listing, load every eligible file,
register every command; a throw during full discovery is fatal. -/
def loadAllCommandsAux (env : LoadEnv) : List String → List CommandInfo →
    Except String (List CommandInfo)
  | [], acc => .ok acc
  | f :: fs, acc =>
    if isLoadableFile f then
      match env.load f with
      | .throws e => .error e
      | .command c => loadAllCommandsAux env fs (acc ++ [mkCommandInfo c])
      | .notCommand => loadAllCommandsAux env fs acc
    else loadAllCommandsAux env fs acc

def loadAllCommands (env : LoadEnv) : Except String (List CommandInfo) :=
  loadAllCommandsAux env env.files []

/-- The full catalog: one descriptor per eligible file that loads to a
command. -/
def fullCatalog (env : LoadEnv) : List CommandInfo :=
  env.files.filterMap fun f =>
    if isLoadableFile f then
      match env.load f with
      | .command c => some (mkCommandInfo c)
      | _ => none
    else none

/-- No eligible file throws during full discovery. -/
def noLoadableThrows (env : LoadEnv) : Bool :=
  env.files.all fun f => !(isLoadableFile f && isThrowsLoad (env.load f))

/-- `Cli.loadCommandFromArgs`: resolve the positional words to a single
command file when possible and register only it; otherwise (no words, a
`completion` word, a missing file, a throwing load, or a non-command
artifact) fall back to full discovery. -/
def loadCommandFromArgs (env : LoadEnv) (words : List String) :
    Except String (List CommandInfo) :=
  if words.length = 0 then loadAllCommands env
  else if words.contains "completion" then loadAllCommands env
  else
    let commandFilePath' := commandFilePath env.rootFolder words
    if env.fileExists commandFilePath' then
      match env.load commandFilePath' with
      | .command c => .ok [mkCommandInfo c]
      | .notCommand => loadAllCommands env
      | .throws _ => loadAllCommands env
    else loadAllCommands env

/-! ## Validation and dispatch (`Cli.execute`, lines 99-165, and
`Cli.closeWithError`) -/

/-- Observable outcome of the post-resolution part of `Cli.execute`:
either `closeWithError` fired before the action was reached (error printed,
help shown, nonzero exit), or the action ran and completed through its
callback (with an error and its exit code, or cleanly with `process.exit(0)`). -/
inductive RunOutcome where
  | fatalBeforeAction (message : String) (exitCode : Nat) (helpShown : Bool)
  | errorAfterAction (message : String) (exitCode : Nat)
  | exitZero
deriving DecidableEq

def actionInvoked : RunOutcome → Bool
  | .fatalBeforeAction _ _ _ => false
  | _ => true

/-- The single-quote character (used by the unknown-option message). -/
def singleQuote : String := "\x27"

def invalidOptionMsg (k : String) : String :=
  "Invalid option: " ++ singleQuote ++ k ++ singleQuote ++ osEOL

/-- The unknown-option scan of `Cli.execute`: skipped entirely when the
command allows unknown options; otherwise the first parsed key other than
the catch-all `_` that equals no declared option's `long` or `short` form
is fatal. -/
def findInvalidOption (info : CommandInfo) (opts : OptionsMap) : Option String :=
  if info.command.allowUnknownOptions then none
  else
    List.find?
      (fun k =>
        !(k == "_") &&
          !(info.options.any (fun o => o.long == some k || o.short == some k)))
      (opts.map (fun p => p.1))

/-- The required-option scan of `Cli.execute`: the first declared option
with `required` whose canonical `name` reads as `undefined` in the parsed
options is fatal. -/
def findMissingRequired (info : CommandInfo) (opts : OptionsMap) : Option String :=
  (List.find? (fun o => o.required && isUndefined (getOpt opts o.name)) info.options).map
    (fun o => o.name)

/-- Exit code `Cli.closeWithError` derives from a `CommandError`:
`error.code` when truthy (a nonzero number), else the generic `1`. -/
def commandErrorExitCode (e : CommandError) : Nat :=
  match e.code with
  | some c => if c = 0 then 1 else c
  | none => 1

/-- Invoking the command's action and completing through its callback:
a truthy callback error reaches `closeWithError` (no help), otherwise
`process.exit(0)`. -/
def runAction (info : CommandInfo) (opts : OptionsMap) : RunOutcome :=
  match info.command.action opts with
  | some err => .errorAfterAction err.message (commandErrorExitCode err)
  | none => .exitZero

/-- The tail of the pipeline after the unknown-option check: required-option
check, then the command's `validate()` (fatal exactly when it returns a
string), then the action. -/
def runValidationTail (info : CommandInfo) (opts : OptionsMap) : RunOutcome :=
  match findMissingRequired info opts with
  | some name => .fatalBeforeAction ("Required option " ++ name ++ " not specified") 1 true
  | none =>
    match info.command.validate with
    | some f =>
      match f opts with
      | .str s => .fatalBeforeAction s 1 true
      | _ => runAction info opts
    | none => runAction info opts

/-- The post-resolution pipeline of `Cli.execute` (lines 99-165): unknown
options, required options, custom validation, dispatch. -/
def runResolved (info : CommandInfo) (opts : OptionsMap) : RunOutcome :=
  match findInvalidOption info opts with
  | some k => .fatalBeforeAction (invalidOptionMsg k) 1 true
  | none => runValidationTail info opts

/-! ## The Output Renderer (`Cli.logOutput`) -/

/-- `Object.getOwnPropertyNames` on the values the renderer can reach it
with (plain objects: insertion-order keys; arrays: index keys then
`length`; other objects: none). -/
def ownPropertyNames : JsValue → List String
  | .obj fs => fs.map (fun p => p.1)
  | .arr xs => (List.range xs.length).map (fun i => String.mk (natToChars i)) ++ ["length"]
  | _ => []

/-- Property read `v[k]` on the values the renderer reaches. -/
def jsGetProp : JsValue → String → JsValue
  | .obj fs, k =>
    (match List.find? (fun p => p.1 == k) fs with
     | some p => p.2
     | none => .undefined)
  | .arr xs, k =>
    if k == "length" then .num xs.length
    else
      (match (List.range xs.length).find? (fun i => String.mk (natToChars i) == k) with
       | some i => xs.getD i .undefined
       | none => .undefined)
  | _, _ => .undefined

mutual
/-- Element coercion of `Array.prototype.join`: `undefined` and `null`
become empty, arrays join recursively with commas, plain objects print as
`[object Object]`. -/
def joinElemStr : JsValue → String
  | .undefined => ""
  | .null => ""
  | .boolean b => if b then "true" else "false"
  | .num n => String.mk (intChars n)
  | .str s => s
  | .date s _ => s
  | .obj _ => "[object Object]"
  | .arr xs => joinCommaStr xs

def joinCommaStr : List JsValue → String
  | [] => ""
  | [x] => joinElemStr x
  | x :: xs => joinElemStr x ++ "," ++ joinCommaStr xs
end

/-- `Array.prototype.join(sep)` over JS values. -/
def joinValsSep (sep : String) : List JsValue → String
  | [] => ""
  | [x] => joinElemStr x
  | x :: xs => joinElemStr x ++ sep ++ joinValsSep sep xs

/-- Lexicographic comparison of character lists by code point, the order
JavaScript's default `Array.prototype.sort` applies to strings. -/
def charListLe : List Char → List Char → Bool
  | [], _ => true
  | _ :: _, [] => false
  | a :: as, b :: bs =>
    if a.toNat < b.toNat then true
    else if b.toNat < a.toNat then false
    else charListLe as bs

def strLe (a b : String) : Bool := charListLe a.toList b.toList

/-- JavaScript string sort order (`Array.prototype.sort` with no
comparator compares the strings themselves). -/
def insertStr (s : String) : List String → List String
  | [] => [s]
  | t :: ts => if strLe s t then s :: t :: ts else t :: insertStr s ts

def sortStrings : List String → List String
  | [] => []
  | s :: ss => insertStr s (sortStrings ss)

/-- Template interpolation of a single-object property value in the
aligned-block renderer: arrays and objects (and `null`/`Date`, which
`typeof` calls objects) are `JSON.stringify`-ed inline; primitives
interpolate directly. -/
def inlineVal (v : JsValue) : String :=
  match v with
  | .arr _ | .obj _ | .null | .date _ _ =>
    (match compactV v with
     | some cs => String.mk cs
     | none => "undefined")
  | .undefined => "undefined"
  | .boolean b => if b then "true" else "false"
  | .num n => String.mk (intChars n)
  | .str s => s

/-- Right-padding of a key to the width of the longest key
(`p + new Array(longest - p.length + 1).join(' ')`). -/
def padKeyTo (p : String) (longest : Nat) : String :=
  if p.length < longest then p ++ String.mk (List.replicate (longest - p.length) ' ') else p

/-- The longest-property fold of the aligned-block renderer. -/
def longestLen (names : List String) : Nat :=
  names.foldl (fun m p => if p.length > m then p.length else m) 0

/-- The single-object branch of `Cli.logOutput`: one aligned `key: value`
line per own property, keys sorted, joined by `'\n'` with a trailing
newline. -/
def renderObjBlock (obj1 : JsValue) : String :=
  let propertyNames := ownPropertyNames obj1
  let longest := longestLen propertyNames
  let output :=
    (sortStrings propertyNames).map fun p =>
      padKeyTo p longest ++ ": " ++ inlineVal (jsGetProp obj1 p)
  joinSep "\n" output ++ "\n"

/-- The query step of `Cli.logOutput`: apply the external `jmespath.search`
collaborator when `options.query` is truthy and `options.help` is not. -/
def appliedQuery (search : JsValue → JsValue → JsValue) (v : JsValue)
    (options : OptionsMap) : JsValue :=
  if truthy (getOpt options "query") && !truthy (getOpt options "help") then
    search v (getOpt options "query")
  else v

/-- The element-type scan of `Cli.logOutput` on an array value: the
`typeof` of the first element that is not `undefined`, else `''`. -/
def firstDefinedType (xs : List JsValue) : String :=
  match xs.find? (fun x => !(jsTypeof x == "undefined")) with
  | some x => jsTypeof x
  | none => ""

/-- `Cli.logOutput`.  `search` is the external `jmespath.search`
collaborator and `tbl` the external `easy-table` rendering of the
multi-object branch; the function returns the value handed to
`console.log` (a string in every branch except the `undefined`
pass-through). -/
def logOutput (search : JsValue → JsValue → JsValue) (tbl : List JsValue → String)
    (logStatement : JsValue) (options : OptionsMap) : JsValue :=
  match logStatement with
  | .date s _ => .str s
  | ls =>
    let logStatementType := jsTypeof ls
    if logStatementType = "undefined" then ls
    else
      let ls1 := appliedQuery search ls options
      if isJsonStr (getOpt options "output") then
        match prettyV 0 ls1 with
        | some cs => .str (String.mk cs)
        | none => .undefined
      else
        let norm :=
          match ls1 with
          | .arr xs => (xs, firstDefinedType xs)
          | v => ([v], logStatementType)
        if !(norm.2 = "object") then .str (joinValsSep osEOL norm.1)
        else
          match norm.1 with
          | [obj1] => .str (renderObjBlock obj1)
          | rows => .str (tbl rows)

/-! ## Helper lemmas: whitespace and digits -/

theorem skipWs_append_allWs (pre cs : List Char) (h : allWs pre = true) :
    skipWs (pre ++ cs) = skipWs cs := by
  induction pre with
  | nil => rfl
  | cons c p ih =>
    simp only [allWs, List.all_cons, Bool.and_eq_true] at h
    simpa [skipWs, List.dropWhile, h.1] using ih h.2

theorem skipWs_cons_of_not_ws {c : Char} (cs : List Char) (h : isWsCh c = false) :
    skipWs (c :: cs) = c :: cs := by
  simp [skipWs, List.dropWhile, h]

theorem skipWs_cons_ws {c : Char} (cs : List Char) (h : isWsCh c = true) :
    skipWs (c :: cs) = skipWs cs := by
  simp [skipWs, List.dropWhile, h]

theorem allWs_indentChars (d : Nat) : allWs (indentChars d) = true := by
  simp only [allWs, indentChars, List.all_eq_true]
  intro c hc
  rcases List.eq_of_mem_replicate hc with rfl
  decide

theorem digVal_digitCh {d : Nat} (h : d < 10) : digVal (digitCh d) = d := by
  interval_cases d <;> decide

theorem isDigitCh_digitCh {d : Nat} (h : d < 10) : isDigitCh (digitCh d) = true := by
  interval_cases d <;> decide

theorem isWsCh_digitCh {d : Nat} (h : d < 10) : isWsCh (digitCh d) = false := by
  interval_cases d <;> decide

def foldDigits (acc : Nat) (ds : List Nat) : Nat :=
  ds.foldl (fun a d => a * 10 + d) acc

theorem foldDigits_append (acc : Nat) (l r : List Nat) :
    foldDigits acc (l ++ r) = foldDigits (foldDigits acc l) r := by
  simp [foldDigits, List.foldl_append]

theorem digitsRev_lt {fuel n : Nat} : ∀ d ∈ digitsRev fuel n, d < 10 := by
  induction fuel generalizing n with
  | zero => simp [digitsRev]
  | succ f ih =>
    by_cases h : n = 0
    · simp [digitsRev, h]
    · intro d hd
      rw [digitsRev, if_neg h] at hd
      rcases List.mem_cons.mp hd with rfl | hd
      · exact Nat.mod_lt _ (by omega)
      · exact ih _ hd

theorem digitsRev_spec (fuel : Nat) :
    ∀ n acc, n ≤ fuel →
      foldDigits acc ((digitsRev fuel n).reverse)
        = acc * 10 ^ (digitsRev fuel n).length + n := by
  induction fuel with
  | zero =>
    intro n acc h
    have : n = 0 := by omega
    subst this
    simp [digitsRev, foldDigits]
  | succ f ih =>
    intro n acc h
    by_cases h0 : n = 0
    · simp [digitsRev, h0, foldDigits]
    · have hq : n / 10 ≤ f := by
        have := Nat.div_lt_self (by omega : 0 < n) (by omega : 1 < 10)
        omega
      rw [digitsRev, if_neg h0]
      simp only [List.reverse_cons, List.length_cons]
      rw [foldDigits_append, ih _ acc hq]
      have hmod := Nat.div_add_mod n 10
      simp only [foldDigits, List.foldl_cons, List.foldl_nil, Nat.pow_succ]
      ring_nf
      omega

/-- The decimal digits of `n`, most significant first. -/
def natDigits (n : Nat) : List Nat :=
  if n = 0 then [0] else (digitsRev n n).reverse

theorem natToChars_eq_map (n : Nat) : natToChars n = (natDigits n).map digitCh := by
  by_cases h : n = 0
  · simp [natToChars, natDigits, h]
    decide
  · simp [natToChars, natDigits, h]

theorem natDigits_lt {n : Nat} : ∀ d ∈ natDigits n, d < 10 := by
  intro d hd
  by_cases h : n = 0
  · simp [natDigits, h] at hd
    omega
  · rw [natDigits, if_neg h, List.mem_reverse] at hd
    exact digitsRev_lt d hd

theorem natDigits_ne_nil (n : Nat) : natDigits n ≠ [] := by
  by_cases h : n = 0
  · simp [natDigits, h]
  · rw [natDigits, if_neg h]
    match n, h with
    | m + 1, _ => rw [digitsRev, if_neg (by omega)]; simp

theorem foldDigits_natDigits (n : Nat) : foldDigits 0 (natDigits n) = n := by
  by_cases h : n = 0
  · simp [natDigits, h, foldDigits]
  · simp only [natDigits, h, if_false]
    have := digitsRev_spec n n 0 le_rfl
    simpa using this

theorem parseNatChars_digits :
    ∀ (ds : List Nat), (∀ d ∈ ds, d < 10) → ∀ (rest : List Char) (acc : Nat),
      noDigitHead rest = true →
      parseNatChars (ds.map digitCh ++ rest) acc = (foldDigits acc ds, rest) := by
  intro ds
  induction ds with
  | nil =>
    intro _ rest acc hrest
    match rest with
    | [] => rfl
    | c :: cs =>
      simp only [noDigitHead, Bool.not_eq_true'] at hrest
      simp [parseNatChars, hrest, foldDigits]
  | cons d ds ih =>
    intro hlt rest acc hrest
    have hd : d < 10 := hlt d (by simp)
    simp only [List.map_cons, List.cons_append, parseNatChars,
      isDigitCh_digitCh hd, if_true, digVal_digitCh hd, List.append_eq]
    rw [ih (fun x hx => hlt x (by simp [hx])) rest _ hrest]
    rfl

theorem natToChars_exists_head (n : Nat) :
    ∃ d ds, natDigits n = d :: ds ∧ d < 10 ∧
      natToChars n = digitCh d :: ds.map digitCh := by
  match h : natDigits n with
  | [] => exact absurd h (natDigits_ne_nil n)
  | d :: ds =>
    refine ⟨d, ds, rfl, natDigits_lt d (by rw [h]; simp), ?_⟩
    rw [natToChars_eq_map, h, List.map_cons]

theorem parseNat_roundtrip (n : Nat) (rest : List Char) (hrest : noDigitHead rest = true) :
    ∃ d ds, natToChars n = digitCh d :: ds ∧ d < 10 ∧
      parseNatChars (ds ++ rest) (digVal (digitCh d)) = (n, rest) := by
  obtain ⟨d, ds, hnd, hd10, hmap⟩ := natToChars_exists_head n
  refine ⟨d, ds.map digitCh, hmap, hd10, ?_⟩
  rw [digVal_digitCh hd10]
  rw [parseNatChars_digits ds (fun x hx => natDigits_lt x (by rw [hnd]; simp [hx])) rest d hrest]
  have : foldDigits d ds = n := by
    have := foldDigits_natDigits n
    rw [hnd] at this
    simpa [foldDigits] using this
  rw [this]

/-! ## Helper lemmas: string escaping round-trip -/

theorem hexVal_hexCh {n : Nat} (h : n < 16) : hexVal (hexCh n) = some n := by
  interval_cases n <;> decide

theorem parseStringBody_roundtrip :
    ∀ (l acc rest : List Char),
      parseStringBody (escChars l ++ '"' :: rest) acc
        = some (String.mk (acc.reverse ++ l), rest) := by
  intro l
  induction l with
  | nil =>
    intro acc rest
    rw [escChars, List.nil_append, parseStringBody.eq_def]
    simp
  | cons c l ih =>
    intro acc rest
    rw [escChars, List.append_assoc]
    by_cases h1 : c = '"'
    · subst h1
      simp only [escChar]
      norm_num
      rw [parseStringBody.eq_def]
      simp [unescCh, ih]
    · by_cases h2 : c = '\\'
      · subst h2
        simp only [escChar]
        norm_num
        rw [parseStringBody.eq_def]
        simp [unescCh, ih]
      · by_cases h3 : c = '\n'
        · subst h3
          simp only [escChar]
          norm_num
          rw [parseStringBody.eq_def]
          simp [unescCh, ih]
        · by_cases h4 : c = '\r'
          · subst h4
            simp only [escChar]
            norm_num
            rw [parseStringBody.eq_def]
            simp [unescCh, ih]
          · by_cases h5 : c = '\t'
            · subst h5
              simp only [escChar]
              norm_num
              rw [parseStringBody.eq_def]
              simp [unescCh, ih]
            · by_cases h6 : c = Char.ofNat 8
              · subst h6
                simp only [escChar]
                norm_num
                rw [parseStringBody.eq_def]
                simp [unescCh, ih]
              · by_cases h7 : c = Char.ofNat 12
                · subst h7
                  simp only [escChar]
                  norm_num
                  rw [parseStringBody.eq_def]
                  simp [unescCh, ih]
                · by_cases h8 : c.toNat < 32
                  · have hhi : c.toNat / 16 < 16 := by omega
                    have hlo : c.toNat % 16 < 16 := Nat.mod_lt _ (by omega)
                    simp only [escChar, h1, h2, h3, h4, h5, h6, h7, if_false, if_pos h8]
                    rw [parseStringBody.eq_def]
                    simp only [List.cons_append, List.nil_append]
                    norm_num
                    simp only [hexVal_hexCh hhi, hexVal_hexCh hlo]
                    rw [if_neg (by decide : ¬('\\' : Char) = '"')]
                    simp only [show hexVal '0' = some 0 from by decide]
                    rw [show (((0 * 16 + 0) * 16 + c.toNat / 16) * 16 + c.toNat % 16)
                          = c.toNat by omega]
                    rw [Char.ofNat_toNat, ih]
                    simp
                  · simp only [escChar, h1, h2, h3, h4, h5, h6, h7, h8, if_false]
                    rw [parseStringBody.eq_def]
                    simp [h1, h2, ih]

theorem quoteChars_roundtrip (s : String) (rest : List Char) :
    parseStringBody (escChars s.toList ++ '"' :: rest) [] = some (s, rest) := by
  rw [parseStringBody_roundtrip]
  simp

/-! ## Helper lemmas: sizes, representability, and pretty-printed heads -/

theorem sizeV_pos (v : JsValue) : 1 ≤ sizeV v := by
  cases v <;> simp [sizeV]

theorem sizeL_pos (xs : List JsValue) : 1 ≤ sizeL xs := by
  cases xs <;> simp [sizeL]

theorem sizeF_pos (fs : List (String × JsValue)) : 1 ≤ sizeF fs := by
  match fs with
  | [] => simp [sizeF]
  | (k, v) :: fs => simp [sizeF]

theorem allWs_append (a b : List Char) :
    allWs (a ++ b) = (allWs a && allWs b) := by
  simp [allWs, List.all_append]

theorem digitCh_props {d : Nat} (h : d < 10) :
    isWsCh (digitCh d) = false ∧ digitCh d ≠ '[' ∧ digitCh d ≠ '{' ∧ digitCh d ≠ '"' ∧
      digitCh d ≠ 't' ∧ digitCh d ≠ 'f' ∧ digitCh d ≠ 'n' ∧ digitCh d ≠ '-' ∧
      digitCh d ≠ ']' ∧ digitCh d ≠ '}' := by
  interval_cases d <;>
    exact ⟨by decide, by decide, by decide, by decide, by decide, by decide, by decide,
      by decide, by decide, by decide⟩

/-- A pretty-printed representable value starts with a non-whitespace
character that is not a closing bracket. -/
theorem prettyV_head {v : JsValue} (d : Nat) (hok : jsonOk v = true) :
    ∃ c cs, prettyV d v = some (c :: cs) ∧ isWsCh c = false ∧ c ≠ ']' ∧ c ≠ '}' := by
  match v with
  | .undefined => simp [jsonOk] at hok
  | .date _ _ => simp [jsonOk] at hok
  | .null => exact ⟨'n', _, rfl, by decide, by decide, by decide⟩
  | .boolean true => exact ⟨'t', _, rfl, by decide, by decide, by decide⟩
  | .boolean false => exact ⟨'f', _, rfl, by decide, by decide, by decide⟩
  | .str s => exact ⟨'"', _, rfl, by decide, by decide, by decide⟩
  | .num (Int.ofNat m) =>
    obtain ⟨dg, ds, hnd, hd10, hmap⟩ := natToChars_exists_head m
    refine ⟨digitCh dg, ds.map digitCh, ?_, (digitCh_props hd10).1,
      (digitCh_props hd10).2.2.2.2.2.2.2.2.1, (digitCh_props hd10).2.2.2.2.2.2.2.2.2⟩
    simp [prettyV, intChars, hmap]
  | .num (Int.negSucc m) =>
    refine ⟨'-', natToChars (m + 1), ?_, by decide, by decide, by decide⟩
    simp [prettyV, intChars]
  | .arr xs =>
    match hxs : prettyItems (d + 1) xs with
    | [] =>
      refine ⟨'[', [']'], ?_, by decide, by decide, by decide⟩
      simp [prettyV, hxs]
    | p :: ps =>
      refine ⟨'[', '\n' :: (joinIndented (d + 1) (p :: ps) ++ '\n' :: (indentChars d ++ [']'])),
        ?_, by decide, by decide, by decide⟩
      simp [prettyV, hxs]
  | .obj fs =>
    match hfs : prettyMembers (d + 1) fs with
    | [] =>
      refine ⟨'{', ['}'], ?_, by decide, by decide, by decide⟩
      simp [prettyV, hfs]
    | p :: ps =>
      refine ⟨'{', '\n' :: (joinIndented (d + 1) (p :: ps) ++ '\n' :: (indentChars d ++ ['}'])),
        ?_, by decide, by decide, by decide⟩
      simp [prettyV, hfs]


/-! ## The JSON round-trip: parsing the pretty-printed text recovers the
value -/

def RoundV (f : Nat) : Prop :=
  ∀ (v : JsValue) (d : Nat) (pre rest : List Char), jsonOk v = true → sizeV v ≤ f →
    allWs pre = true → noDigitHead rest = true →
    ∃ cs, prettyV d v = some cs ∧ parseValue f (pre ++ (cs ++ rest)) = some (v, rest)

def RoundE (f : Nat) : Prop :=
  ∀ (xs : List JsValue) (d : Nat) (pre rest : List Char), jsonOkL xs = true → sizeL xs ≤ f →
    allWs pre = true → xs ≠ [] →
    parseElems f (pre ++ (joinIndented (d + 1) (prettyItems (d + 1) xs)
      ++ '\n' :: (indentChars d ++ (']' :: rest)))) = some (xs, rest)

def RoundF (f : Nat) : Prop :=
  ∀ (fs : List (String × JsValue)) (d : Nat) (pre rest : List Char), jsonOkF fs = true →
    sizeF fs ≤ f → allWs pre = true → fs ≠ [] →
    parseFields f (pre ++ (joinIndented (d + 1) (prettyMembers (d + 1) fs)
      ++ '\n' :: (indentChars d ++ ('}' :: rest)))) = some (fs, rest)

theorem joinIndented_cons (d : Nat) (p : List Char) (ps : List (List Char)) :
    joinIndented d (p :: ps)
      = indentChars d ++ (p ++ (if ps.isEmpty then []
          else ',' :: '\n' :: joinIndented d ps)) := by
  cases ps <;> simp [joinIndented]

theorem roundV_num_ofNat (f : Nat) {m d : Nat} {pre rest : List Char}
    (hpre : allWs pre = true) (hrest : noDigitHead rest = true) :
    ∃ cs, prettyV d (.num (Int.ofNat m)) = some cs ∧
      parseValue (f + 1) (pre ++ (cs ++ rest)) = some (.num (Int.ofNat m), rest) := by
  obtain ⟨dg, ds, hm, hd10, hparse⟩ := parseNat_roundtrip m rest hrest
  obtain ⟨hws, hb1, hb2, hb3, hb4, hb5, hb6, hb7, hb8, hb9⟩ := digitCh_props hd10
  refine ⟨natToChars m, by simp [prettyV, intChars], ?_⟩
  rw [parseValue.eq_def, hm]
  simp only [List.cons_append, List.nil_append]
  rw [skipWs_append_allWs _ _ hpre, skipWs_cons_of_not_ws _ hws]
  simp only [hb1, hb2, hb3, hb4, hb5, hb6, hb7, if_neg, if_false,
    isDigitCh_digitCh hd10, if_true, hparse]
  simp [hparse]

theorem roundV_num_negSucc (f : Nat) {m d : Nat} {pre rest : List Char}
    (hpre : allWs pre = true) (hrest : noDigitHead rest = true) :
    ∃ cs, prettyV d (.num (Int.negSucc m)) = some cs ∧
      parseValue (f + 1) (pre ++ (cs ++ rest)) = some (.num (Int.negSucc m), rest) := by
  obtain ⟨dg, ds, hm, hd10, hparse⟩ := parseNat_roundtrip (m + 1) rest hrest
  refine ⟨'-' :: natToChars (m + 1), by simp [prettyV, intChars], ?_⟩
  rw [parseValue.eq_def]
  simp only [List.cons_append, List.nil_append]
  rw [skipWs_append_allWs _ _ hpre, skipWs_cons_of_not_ws _ (by decide), hm]
  simp only [List.cons_append, isDigitCh_digitCh hd10, if_true, hparse]
  simp [hparse, Int.negSucc_eq]

theorem roundV_arr_cons (f : Nat) (ihE : RoundE f) {x : JsValue} {xs : List JsValue}
    {d : Nat} {pre rest : List Char}
    (hok : jsonOk (.arr (x :: xs)) = true) (hsz : sizeV (.arr (x :: xs)) ≤ f + 1)
    (hpre : allWs pre = true) :
    ∃ cs, prettyV d (.arr (x :: xs)) = some cs ∧
      parseValue (f + 1) (pre ++ (cs ++ rest)) = some (.arr (x :: xs), rest) := by
  have hokl : jsonOkL (x :: xs) = true := by simpa [jsonOk] using hok
  have hokx : jsonOk x = true := by
    have := hokl
    simp [jsonOkL, Bool.and_eq_true] at this
    exact this.1
  obtain ⟨c0, ctail, hpx, hc0ws, hc0r, _⟩ := prettyV_head (d + 1) hokx
  have hitems : prettyItems (d + 1) (x :: xs) = (c0 :: ctail) :: prettyItems (d + 1) xs := by
    simp [prettyItems, hpx]
  refine ⟨'[' :: '\n' :: (joinIndented (d + 1) (prettyItems (d + 1) (x :: xs))
    ++ '\n' :: (indentChars d ++ [']'])), by simp [prettyV, hitems], ?_⟩
  rw [parseValue.eq_def]
  simp only [List.cons_append, List.nil_append]
  rw [skipWs_append_allWs _ _ hpre, skipWs_cons_of_not_ws _ (by decide)]
  have hE := ihE (x :: xs) d ['\n'] rest hokl
    (by simp [sizeV] at hsz; omega) (by decide) (by simp)
  simp only [hitems, joinIndented_cons, List.cons_append, List.nil_append,
    List.append_assoc, List.singleton_append]
  simp only [hitems, joinIndented_cons, List.cons_append, List.nil_append,
    List.append_assoc, List.singleton_append] at hE
  rw [skipWs_cons_ws _ (by decide), skipWs_append_allWs _ _ (allWs_indentChars _),
    skipWs_cons_of_not_ws _ hc0ws]
  simp only [if_true]
  simp only [hc0r, ite_false, if_false, List.isEmpty_eq_true] at hE ⊢
  rw [hE]

theorem roundV_obj_cons (f : Nat) (ihF : RoundF f) {k : String} {v : JsValue}
    {fs : List (String × JsValue)} {d : Nat} {pre rest : List Char}
    (hok : jsonOk (.obj ((k, v) :: fs)) = true) (hsz : sizeV (.obj ((k, v) :: fs)) ≤ f + 1)
    (hpre : allWs pre = true) :
    ∃ cs, prettyV d (.obj ((k, v) :: fs)) = some cs ∧
      parseValue (f + 1) (pre ++ (cs ++ rest)) = some (.obj ((k, v) :: fs), rest) := by
  have hokf : jsonOkF ((k, v) :: fs) = true := by simpa [jsonOk] using hok
  have hokv : jsonOk v = true := by
    have := hokf
    simp [jsonOkF, Bool.and_eq_true] at this
    exact this.1
  obtain ⟨cv0, cvt, hpv, _, _, _⟩ := prettyV_head (d + 1) hokv
  have hmem : prettyMembers (d + 1) ((k, v) :: fs)
      = (quoteChars k ++ ':' :: ' ' :: (cv0 :: cvt)) :: prettyMembers (d + 1) fs := by
    simp [prettyMembers, hpv]
  refine ⟨'\x7b' :: '\n' :: (joinIndented (d + 1) (prettyMembers (d + 1) ((k, v) :: fs))
    ++ '\n' :: (indentChars d ++ ['\x7d'])), by simp [prettyV, hmem], ?_⟩
  rw [parseValue.eq_def]
  simp only [List.cons_append, List.nil_append]
  rw [skipWs_append_allWs _ _ hpre, skipWs_cons_of_not_ws _ (by decide)]
  have hF := ihF ((k, v) :: fs) d ['\n'] rest hokf
    (by simp [sizeV] at hsz; omega) (by decide) (by simp)
  simp only [hmem, joinIndented_cons, quoteChars, List.cons_append, List.nil_append,
    List.append_assoc, List.singleton_append]
  simp only [hmem, joinIndented_cons, quoteChars, List.cons_append, List.nil_append,
    List.append_assoc, List.singleton_append] at hF
  rw [skipWs_cons_ws _ (by decide), skipWs_append_allWs _ _ (allWs_indentChars _),
    skipWs_cons_of_not_ws _ (by decide)]
  simp only [List.isEmpty_eq_true, String.toList] at hF ⊢
  simp [hF]

theorem roundE_succ (f : Nat) (ihV : RoundV f) (ihE : RoundE f) : RoundE (f + 1) := by
  intro xs d pre rest hok hsz hpre hne
  match xs with
  | [] => exact absurd rfl hne
  | [x] =>
    have hokx : jsonOk x = true := by
      simp [jsonOkL, Bool.and_eq_true] at hok
      exact hok
    obtain ⟨cx, hcx, hparse⟩ := ihV x (d + 1) (pre ++ indentChars (d + 1))
      ('\n' :: (indentChars d ++ (']' :: rest))) hokx
      (by simp [sizeL] at hsz; omega)
      (by simp [allWs_append, hpre, allWs_indentChars]) (by simp [noDigitHead]; decide)
    rw [parseElems.eq_def]
    have hitems : prettyItems (d + 1) [x] = [cx] := by simp [prettyItems, hcx]
    rw [hitems]
    simp only [joinIndented, List.append_assoc, List.cons_append, List.nil_append]
    simp only [List.append_assoc] at hparse
    simp only [hparse]
    rw [skipWs_cons_ws _ (by decide), skipWs_append_allWs _ _ (allWs_indentChars _),
      skipWs_cons_of_not_ws _ (by decide)]
    simp
  | x :: y :: ys =>
    have hok2 : jsonOk x = true ∧ jsonOkL (y :: ys) = true := by
      have := hok
      simp only [jsonOkL, Bool.and_eq_true] at this
      exact ⟨this.1, by simp [jsonOkL, this.2.1, this.2.2]⟩
    obtain ⟨cx, hcx, hparse⟩ := ihV x (d + 1) (pre ++ indentChars (d + 1))
      (',' :: '\n' :: (joinIndented (d + 1) (prettyItems (d + 1) (y :: ys))
        ++ '\n' :: (indentChars d ++ (']' :: rest)))) hok2.1
      (by simp [sizeL] at hsz; have := sizeL_pos (y :: ys); omega)
      (by simp [allWs_append, hpre, allWs_indentChars]) (by simp [noDigitHead]; decide)
    have hitems : prettyItems (d + 1) (x :: y :: ys) = cx :: prettyItems (d + 1) (y :: ys) := by
      simp [prettyItems, hcx]
    have hne2 : ¬((prettyItems (d + 1) (y :: ys)).isEmpty = true) := by
      simp [prettyItems]
    rw [parseElems.eq_def, hitems, joinIndented_cons, if_neg hne2]
    simp only [List.append_assoc, List.cons_append, List.nil_append]
    simp only [List.append_assoc] at hparse
    simp only [hparse]
    rw [skipWs_cons_of_not_ws _ (by decide)]
    have hE := ihE (y :: ys) d ['\n'] rest hok2.2
      (by simp only [sizeL] at hsz ⊢; have := sizeV_pos x; omega)
      (by decide) (by simp)
    simp only [List.append_assoc, List.singleton_append, List.cons_append,
      List.nil_append] at hE
    simp [hE]

theorem roundF_succ (f : Nat) (ihV : RoundV f) (ihF : RoundF f) : RoundF (f + 1) := by
  intro fs d pre rest hok hsz hpre hne
  match fs with
  | [] => exact absurd rfl hne
  | [(k, v)] =>
    have hokv : jsonOk v = true := by
      simp [jsonOkF, Bool.and_eq_true] at hok
      exact hok
    obtain ⟨cv, hcv, hparse⟩ := ihV v (d + 1) [' ']
      ('\n' :: (indentChars d ++ ('}' :: rest))) hokv
      (by simp [sizeF] at hsz; omega)
      (by decide) (by simp [noDigitHead]; decide)
    rw [parseFields.eq_def]
    have hmem : prettyMembers (d + 1) [(k, v)] = [quoteChars k ++ ':' :: ' ' :: cv] := by
      simp [prettyMembers, hcv]
    rw [hmem]
    simp only [joinIndented, quoteChars, List.append_assoc, List.cons_append, List.nil_append]
    rw [skipWs_append_allWs _ _ hpre, skipWs_append_allWs _ _ (allWs_indentChars _),
      skipWs_cons_of_not_ws _ (by decide)]
    simp only [eq_self_iff_true, if_true,
      quoteChars_roundtrip k (':' :: ' ' :: (cv ++
        '\n' :: (indentChars d ++ ('}' :: rest))))]
    rw [skipWs_cons_of_not_ws _ (by decide)]
    simp only [eq_self_iff_true, if_true]
    simp only [List.singleton_append, List.append_assoc] at hparse
    simp only [hparse]
    rw [skipWs_cons_ws _ (by decide), skipWs_append_allWs _ _ (allWs_indentChars _),
      skipWs_cons_of_not_ws _ (by decide)]
    simp
  | (k, v) :: (k2, v2) :: fs2 =>
    have hok2 : jsonOk v = true ∧ jsonOkF ((k2, v2) :: fs2) = true := by
      have := hok
      simp only [jsonOkF, Bool.and_eq_true] at this
      exact ⟨this.1, by simp [jsonOkF, this.2.1, this.2.2]⟩
    obtain ⟨cv, hcv, hparse⟩ := ihV v (d + 1) [' ']
      (',' :: '\n' :: (joinIndented (d + 1) (prettyMembers (d + 1) ((k2, v2) :: fs2))
        ++ '\n' :: (indentChars d ++ ('}' :: rest)))) hok2.1
      (by simp only [sizeF] at hsz ⊢; have := sizeF_pos ((k2, v2) :: fs2); omega)
      (by decide) (by simp [noDigitHead]; decide)
    have hmem : prettyMembers (d + 1) ((k, v) :: (k2, v2) :: fs2)
        = (quoteChars k ++ ':' :: ' ' :: cv) :: prettyMembers (d + 1) ((k2, v2) :: fs2) := by
      simp [prettyMembers, hcv]
    have hne2 : ¬((prettyMembers (d + 1) ((k2, v2) :: fs2)).isEmpty = true) := by
      obtain ⟨c0, ct, hpv2, _, _, _⟩ := prettyV_head (d + 1) (by
        have := hok2.2
        simp [jsonOkF, Bool.and_eq_true] at this
        exact this.1)
      simp [prettyMembers, hpv2]
    rw [parseFields.eq_def, hmem, joinIndented_cons, if_neg hne2]
    simp only [quoteChars, List.append_assoc, List.cons_append, List.nil_append]
    rw [skipWs_append_allWs _ _ hpre, skipWs_append_allWs _ _ (allWs_indentChars _),
      skipWs_cons_of_not_ws _ (by decide)]
    simp only [eq_self_iff_true, if_true,
      quoteChars_roundtrip k (':' :: ' ' :: (cv ++
        ',' :: '\n' :: (joinIndented (d + 1) (prettyMembers (d + 1) ((k2, v2) :: fs2))
          ++ '\n' :: (indentChars d ++ ('}' :: rest)))))]
    rw [skipWs_cons_of_not_ws _ (by decide)]
    simp only [eq_self_iff_true, if_true]
    simp only [List.singleton_append, List.append_assoc] at hparse
    simp only [hparse]
    rw [skipWs_cons_of_not_ws _ (by decide)]
    have hF := ihF ((k2, v2) :: fs2) d ['\n'] rest hok2.2
      (by simp only [sizeF] at hsz ⊢; have := sizeV_pos v; omega)
      (by decide) (by simp)
    simp only [List.append_assoc, List.singleton_append, List.cons_append,
      List.nil_append] at hF
    simp [hF]


theorem roundV_succ (f : Nat) (ihE : RoundE f) (ihF : RoundF f) : RoundV (f + 1) := by
  intro v d pre rest hok hsz hpre hrest
  match v with
  | .undefined => simp [jsonOk] at hok
  | .date _ _ => simp [jsonOk] at hok
  | .null =>
    refine ⟨_, rfl, ?_⟩
    rw [parseValue.eq_def]
    simp only [List.cons_append, List.nil_append]
    rw [skipWs_append_allWs _ _ hpre, skipWs_cons_of_not_ws _ (by decide)]
    simp
  | .boolean true =>
    refine ⟨['t', 'r', 'u', 'e'], by simp [prettyV], ?_⟩
    rw [parseValue.eq_def]
    simp only [List.cons_append, List.nil_append]
    rw [skipWs_append_allWs _ _ hpre, skipWs_cons_of_not_ws _ (by decide)]
    simp
  | .boolean false =>
    refine ⟨['f', 'a', 'l', 's', 'e'], by simp [prettyV], ?_⟩
    rw [parseValue.eq_def]
    simp only [List.cons_append, List.nil_append]
    rw [skipWs_append_allWs _ _ hpre, skipWs_cons_of_not_ws _ (by decide)]
    simp
  | .str s =>
    refine ⟨_, rfl, ?_⟩
    rw [parseValue.eq_def]
    simp only [quoteChars, List.cons_append, List.nil_append]
    rw [skipWs_append_allWs _ _ hpre, skipWs_cons_of_not_ws _ (by decide)]
    simp only [List.append_assoc, List.singleton_append]
    have hq := quoteChars_roundtrip s rest
    simp only [String.toList] at hq
    simp [hq]
  | .num (Int.ofNat m) => exact roundV_num_ofNat f hpre hrest
  | .num (Int.negSucc m) => exact roundV_num_negSucc f hpre hrest
  | .arr [] =>
    refine ⟨['[', ']'], by simp [prettyV, prettyItems], ?_⟩
    rw [parseValue.eq_def]
    simp only [List.cons_append, List.nil_append]
    rw [skipWs_append_allWs _ _ hpre, skipWs_cons_of_not_ws _ (by decide)]
    simp [skipWs_cons_of_not_ws _ (by decide : isWsCh ']' = false)]
  | .arr (x :: xs) => exact roundV_arr_cons f ihE hok hsz hpre
  | .obj [] =>
    refine ⟨['\x7b', '\x7d'], by simp [prettyV, prettyMembers], ?_⟩
    rw [parseValue.eq_def]
    simp only [List.cons_append, List.nil_append]
    rw [skipWs_append_allWs _ _ hpre, skipWs_cons_of_not_ws _ (by decide)]
    simp [skipWs_cons_of_not_ws _ (by decide : isWsCh '\x7d' = false)]
  | .obj ((k, v') :: fs) => exact roundV_obj_cons f ihF hok hsz hpre

theorem roundAll : ∀ f, RoundV f ∧ RoundE f ∧ RoundF f := by
  intro f
  induction f with
  | zero =>
    refine ⟨?_, ?_, ?_⟩
    · intro v _ _ _ _ hsz _ _
      exact absurd hsz (by have := sizeV_pos v; omega)
    · intro xs _ _ _ _ hsz _ _
      exact absurd hsz (by have := sizeL_pos xs; omega)
    · intro fs _ _ _ _ hsz _ _
      exact absurd hsz (by have := sizeF_pos fs; omega)
  | succ f ih =>
    obtain ⟨ihV, ihE, ihF⟩ := ih
    exact ⟨roundV_succ f ihE ihF, roundE_succ f ihV ihE, roundF_succ f ihV ihF⟩

/-- Pretty-printing a representable value and parsing the result with
sufficient fuel recovers the value exactly. -/
theorem prettyV_jsonParse_roundtrip (v : JsValue) (hok : jsonOk v = true) :
    ∃ cs, prettyV 0 v = some cs ∧ jsonParse (sizeV v) (String.mk cs) = some v := by
  obtain ⟨cs, hcs, hp⟩ := (roundAll (sizeV v)).1 v 0 [] [] hok le_rfl (by decide) (by decide)
  refine ⟨cs, hcs, ?_⟩
  rw [jsonParse]
  have hmk : String.toList (String.mk cs) = cs := rfl
  rw [hmk]
  simp only [List.nil_append, List.append_nil] at hp
  rw [hp]
  simp [skipWs]

/-! ## Loader lemmas -/

theorem loadAllCommandsAux_ok (env : LoadEnv) :
    ∀ (fs : List String) (acc : List CommandInfo),
      (∀ f ∈ fs, isLoadableFile f = true → isThrowsLoad (env.load f) = false) →
      loadAllCommandsAux env fs acc
        = .ok (acc ++ fs.filterMap (fun f =>
            if isLoadableFile f then
              match env.load f with
              | .command c => some (mkCommandInfo c)
              | _ => none
            else none)) := by
  intro fs
  induction fs with
  | nil => intro acc _; simp [loadAllCommandsAux]
  | cons f fs ih =>
    intro acc h
    by_cases hf : isLoadableFile f = true
    · have hnt := h f (by simp) hf
      match hl : env.load f with
      | .throws e => rw [hl] at hnt; simp [isThrowsLoad] at hnt
      | .command c =>
        simp only [loadAllCommandsAux, hf, if_true, hl]
        rw [ih _ (fun g hg hg2 => h g (by simp [hg]) hg2)]
        simp [List.filterMap_cons, hf, hl]
      | .notCommand =>
        simp only [loadAllCommandsAux, hf, if_true, hl]
        rw [ih _ (fun g hg hg2 => h g (by simp [hg]) hg2)]
        simp [List.filterMap_cons, hf, hl]
    · simp only [loadAllCommandsAux, hf, if_false]
      rw [ih _ (fun g hg hg2 => h g (by simp [hg]) hg2)]
      simp [List.filterMap_cons, hf]

theorem loadAllCommands_ok (env : LoadEnv) (h : noLoadableThrows env = true) :
    loadAllCommands env = .ok (fullCatalog env) := by
  rw [loadAllCommands, fullCatalog]
  rw [loadAllCommandsAux_ok env env.files []]
  · simp
  · intro f hf hload
    have := (List.all_eq_true.mp h) f hf
    simp only [Bool.not_eq_true', Bool.and_eq_false_iff] at this
    rcases this with h1 | h2
    · exact absurd hload (by simp [h1])
    · exact h2

/-- C5: on the targeted single-command path, a missing artifact, a throwing
load, or a non-command artifact silently degrades to full discovery: the
result is exactly that of `loadAllCommands`, and when no catalog file
throws, the registry is the full catalog. -/
theorem claim_C5_fallback (env : LoadEnv) (words : List String)
    (hne : words ≠ []) (hnc : words.contains "completion" = false)
    (hfail : env.fileExists (commandFilePath env.rootFolder words) = false
      ∨ isThrowsLoad (env.load (commandFilePath env.rootFolder words)) = true
      ∨ env.load (commandFilePath env.rootFolder words) = .notCommand) :
    loadCommandFromArgs env words = loadAllCommands env ∧
      (noLoadableThrows env = true →
        loadCommandFromArgs env words = Except.ok (fullCatalog env)) := by
  have hlen : ¬(words.length = 0) := by simpa [List.length_eq_zero] using hne
  have h1 : loadCommandFromArgs env words = loadAllCommands env := by
    rw [loadCommandFromArgs, if_neg hlen, if_neg (by simp only [hnc]; decide)]
    by_cases hex : env.fileExists (commandFilePath env.rootFolder words) = true
    · rw [if_pos hex]
      match hl : env.load (commandFilePath env.rootFolder words) with
      | .throws e => simp only [hl]
      | .notCommand => simp only [hl]
      | .command c =>
        exfalso
        rcases hfail with h | h | h
        · rw [hex] at h; simp at h
        · rw [hl] at h; simp [isThrowsLoad] at h
        · rw [hl] at h; exact LoadResult.noConfusion h
    · rw [if_neg hex]
  exact ⟨h1, fun hnt => h1 ▸ loadAllCommands_ok env hnt⟩

/-- C1 (amended): when the word list is nonempty, free of the `completion`
token, and its computed candidate path exists and loads a command, exactly
that one descriptor is registered. -/
theorem claim_C1_amended (env : LoadEnv) (words : List String) (c : Command)
    (hne : words ≠ []) (hnc : words.contains "completion" = false)
    (hex : env.fileExists (commandFilePath env.rootFolder words) = true)
    (hload : env.load (commandFilePath env.rootFolder words) = .command c) :
    loadCommandFromArgs env words = .ok [mkCommandInfo c] := by
  have hlen : ¬(words.length = 0) := by simpa [List.length_eq_zero] using hne
  rw [loadCommandFromArgs, if_neg hlen, if_neg (by simp only [hnc]; decide), if_pos hex]
  simp only [hload]

/-! ## Concrete loader environments for counterexamples and witnesses -/

def exCompletionCmd : Command :=
  { name := "completion", aliases := none, optionDecls := [],
    allowUnknownOptions := false, validate := none, action := fun _ => none }

def exVersionCmd : Command :=
  { name := "version", aliases := none, optionDecls := [],
    allowUnknownOptions := false, validate := none, action := fun _ => none }

/-- A command tree with two loadable commands, one of them named
`completion` and reachable at its conventional candidate path. -/
def exEnvC1 : LoadEnv :=
  { rootFolder := "/app",
    fileExists := fun p =>
      p == "/app/m365/commands/completion.js" || p == "/app/m365/commands/version.js",
    load := fun p =>
      if p == "/app/m365/commands/completion.js" then .command exCompletionCmd
      else if p == "/app/m365/commands/version.js" then .command exVersionCmd
      else .notCommand,
    files := ["/app/m365/commands/completion.js", "/app/m365/commands/version.js"] }

/-- C1 (counterexample): for the word sequence `["completion"]` the
computed candidate path exists and loads a valid command, yet the Loader
performs full discovery and registers two descriptors, not one — the
`completion` carve-out precedes the candidate-path check. -/
theorem claim_C1_counterexample :
    exEnvC1.fileExists (commandFilePath exEnvC1.rootFolder ["completion"]) = true
    ∧ isCommandLoad (exEnvC1.load (commandFilePath exEnvC1.rootFolder ["completion"])) = true
    ∧ (loadCommandFromArgs exEnvC1 ["completion"]).map List.length = .ok 2
    ∧ (2 : Nat) ≠ 1 := by
  refine ⟨by decide, ?_, ?_, by decide⟩
  · rfl
  · rfl

/-- C1 witness: a fast-path load registering exactly one descriptor. -/
theorem claim_C1_witness :
    loadCommandFromArgs exEnvC1 ["version"] = .ok [mkCommandInfo exVersionCmd] :=
  claim_C1_amended exEnvC1 ["version"] exVersionCmd (by decide) (by decide)
    (by decide) (by rfl)

/-- An environment where the candidate path for `["status"]` is missing. -/
def exEnvC5 : LoadEnv :=
  { rootFolder := "/app",
    fileExists := fun p => p == "/app/m365/commands/version.js",
    load := fun p =>
      if p == "/app/m365/commands/version.js" then .command exVersionCmd
      else .notCommand,
    files := ["/app/m365/commands/version.js", "/app/m365/readme.txt"] }

/-- C5 witness: a missing candidate file degrades to full discovery and
the registry equals the full catalog. -/
theorem claim_C5_witness :
    loadCommandFromArgs exEnvC5 ["status"] = loadAllCommands exEnvC5 ∧
      (noLoadableThrows exEnvC5 = true →
        loadCommandFromArgs exEnvC5 ["status"] = Except.ok (fullCatalog exEnvC5)) :=
  claim_C5_fallback exEnvC5 ["status"] (by decide) (by decide) (Or.inl (by decide))

/-! ## Option-name derivation (C4) -/

/-- The option name a dash token yields: strip `--` for a long token,
`-` for a short one. -/
def stripDash (o : String) : String :=
  if startsWithStr o "--" then dropStr o 2 else dropStr o 1

theorem startsWith_dash_of_dashdash {t : String} (h : startsWithStr t "--" = true) :
    startsWithStr t "-" = true := by
  rcases t with ⟨l⟩
  match l with
  | [] => simp [startsWithStr, List.isPrefixOf] at h
  | c :: cs =>
    simp only [startsWithStr, List.isPrefixOf, Bool.and_eq_true] at h ⊢
    exact ⟨h.1, trivial⟩

/-- The token scan's `name` is determined by the last dash-starting token:
each such token overwrites `name` with its stripped spelling. -/
theorem scan_fold_name :
    ∀ (ts : List String) (st : ScanState),
      (ts.foldl scanToken st).name
        = match (ts.filter (fun t => startsWithStr t "-")).getLast? with
          | some t => stripDash t
          | none => st.name := by
  intro ts
  induction ts with
  | nil => intro st; rfl
  | cons t ts ih =>
    intro st
    rw [List.foldl_cons, ih, List.filter_cons]
    by_cases h1 : startsWithStr t "-" = true
    · rw [if_pos h1]
      match hfil : ts.filter (fun t => startsWithStr t "-") with
      | [] =>
        simp only [List.getLast?_singleton]
        by_cases h2 : startsWithStr t "--" = true
        · simp [scanToken, h2, stripDash]
        · simp [scanToken, h1, h2, stripDash]
      | u :: us =>
        rw [List.getLast?_cons_cons]
        cases hl : (u :: us).getLast? with
        | none => exact absurd (List.getLast?_eq_none_iff.mp hl) (by simp)
        | some w => rfl
    · rw [if_neg h1]
      have h2 : startsWithStr t "--" = false := by
        by_contra hcon
        simp only [Bool.not_eq_false] at hcon
        rw [startsWith_dash_of_dashdash hcon] at h1
        exact h1 rfl
      simp [scanToken, h1, h2]

/-- C4 (amended): the descriptor's `name` equals the stripped spelling of
whichever dash token occurs last in the declaration — the long form does
not win when the short token comes after it. -/
theorem claim_C4_amended (decl : OptionDecl) (t : String)
    (h : ((jsSplit decl.option).filter (fun o => startsWithStr o "-")).getLast? = some t) :
    (parseOptionDecl decl).name = stripDash t := by
  unfold parseOptionDecl
  simp only []
  rw [scan_fold_name, h]

/-- C4 (counterexample): in the declaration `--webUrl <webUrl>, -u` both a
long and a short form occur, but `name` is the short form `u`, not the
long form `webUrl` — token order decides. -/
theorem claim_C4_counterexample :
    (parseOptionDecl ⟨"--webUrl <webUrl>, -u", none⟩).long = some "webUrl"
    ∧ (parseOptionDecl ⟨"--webUrl <webUrl>, -u", none⟩).short = some "u"
    ∧ (parseOptionDecl ⟨"--webUrl <webUrl>, -u", none⟩).name = "u"
    ∧ "u" ≠ "webUrl" := by
  refine ⟨by decide, by decide, by decide, by decide⟩

/-- C4 witness: the amended rule applied to the counterexample
declaration, whose last dash token is `-u`. -/
theorem claim_C4_witness :
    (parseOptionDecl ⟨"--webUrl <webUrl>, -u", none⟩).name = stripDash "-u" :=
  claim_C4_amended ⟨"--webUrl <webUrl>, -u", none⟩ "-u" (by decide)

/-! ## Unknown-option check (C2) -/

/-- Invariant of the token scan: `name` is always the spelling recorded in
`long` or in `short` (or still empty). -/
def nameConsistent (st : ScanState) : Prop :=
  st.name = "" ∨ st.long = some st.name ∨ st.short = some st.name

theorem scanToken_consistent {st : ScanState} (hc : nameConsistent st) (o : String) :
    nameConsistent (scanToken st o) := by
  unfold scanToken nameConsistent
  by_cases h2 : startsWithStr o "--" = true
  · simp [h2]
  · by_cases h1 : startsWithStr o "-" = true
    · simp [h2, h1]
    · simpa [h2, h1] using hc

theorem foldl_scan_consistent (ts : List String) (st : ScanState) (hc : nameConsistent st) :
    nameConsistent (ts.foldl scanToken st) := by
  induction ts generalizing st with
  | nil => exact hc
  | cons t ts ih => exact ih _ (scanToken_consistent hc t)

/-- Every descriptor the extraction builds has its `name` recorded in its
`long` or `short` form, unless the name is empty. -/
theorem parseOptionDecl_name_form (decl : OptionDecl) :
    (parseOptionDecl decl).name = ""
      ∨ (parseOptionDecl decl).long = some (parseOptionDecl decl).name
      ∨ (parseOptionDecl decl).short = some (parseOptionDecl decl).name := by
  unfold parseOptionDecl
  exact foldl_scan_consistent _ _ (Or.inl rfl)

/-- Modelled from the spec: the spec's unknown-key criterion — a parsed
key matches a declared option when it equals its `name`, `short`, or
`long` form. -/
def matchesDeclared (os : List CommandOption) (k : String) : Bool :=
  os.any fun o => o.name == k || o.long == some k || o.short == some k

/-- Modelled from the spec: the first parsed key (other than the catch-all
`_`) matching no declared option's name, short, or long form. -/
def firstUnknownKeySpec (info : CommandInfo) (opts : OptionsMap) : Option String :=
  List.find? (fun k => !(k == "_") && !(matchesDeclared info.options k))
    (opts.map fun p => p.1)

theorem matchesDeclared_eq (c : Command)
    (hnames : ∀ o ∈ (mkCommandInfo c).options, o.name ≠ "") (k : String) :
    matchesDeclared (mkCommandInfo c).options k
      = (mkCommandInfo c).options.any (fun o => o.long == some k || o.short == some k) := by
  rw [matchesDeclared, Bool.eq_iff_iff, List.any_eq_true, List.any_eq_true]
  constructor
  · rintro ⟨o, ho, hp⟩
    refine ⟨o, ho, ?_⟩
    simp only [Bool.or_eq_true] at hp ⊢
    rcases hp with (hname | hlong) | hshort
    · have hk : o.name = k := by simpa using hname
      have hform : o.long = some o.name ∨ o.short = some o.name := by
        have ho2 := ho
        simp only [mkCommandInfo, getCommandOptions, List.mem_map] at ho2
        obtain ⟨decl, _, rfl⟩ := ho2
        rcases parseOptionDecl_name_form decl with hempty | h | h
        · exact absurd hempty (hnames _ ho)
        · exact Or.inl h
        · exact Or.inr h
      rcases hform with h | h
      · exact Or.inl (by simp [h, hk])
      · exact Or.inr (by simp [h, hk])
    · exact Or.inl hlong
    · exact Or.inr hshort
  · rintro ⟨o, ho, hp⟩
    refine ⟨o, ho, ?_⟩
    simp only [Bool.or_eq_true] at hp ⊢
    rcases hp with h | h
    · exact Or.inl (Or.inr h)
    · exact Or.inr h

/-- Under the descriptor-name invariant, the spec's three-way criterion and
the code's two-way scan find the same first unknown key. -/
theorem firstUnknownKeySpec_eq (c : Command) (opts : OptionsMap)
    (hnames : ∀ o ∈ (mkCommandInfo c).options, o.name ≠ "")
    (hallow : c.allowUnknownOptions = false) :
    findInvalidOption (mkCommandInfo c) opts = firstUnknownKeySpec (mkCommandInfo c) opts := by
  rw [findInvalidOption, firstUnknownKeySpec]
  rw [if_neg (by simp [mkCommandInfo, hallow])]
  congr 1
  funext k
  rw [matchesDeclared_eq c hnames k]

/-- C2: when the command does not allow unknown options, the first parsed
key (other than the catch-all `_`) equal to no declared option's name,
short, or long form is fatal, with an error naming that flag, help shown,
and the action never invoked; when it does allow them, the check is
skipped entirely.  The hypothesis that every descriptor's `name` is
non-empty is the data-model invariant the spec itself states ("name is
always derivable and non-empty once constructed"); under it the spec's
three-way criterion coincides with the code's two-way scan
(`firstUnknownKeySpec_eq`). -/
theorem claim_C2_unknown_options (c : Command) (opts : OptionsMap)
    (hnames : ∀ o ∈ (mkCommandInfo c).options, o.name ≠ "") :
    (c.allowUnknownOptions = false →
      ∀ k, firstUnknownKeySpec (mkCommandInfo c) opts = some k →
        runResolved (mkCommandInfo c) opts = .fatalBeforeAction (invalidOptionMsg k) 1 true
          ∧ actionInvoked (runResolved (mkCommandInfo c) opts) = false)
    ∧ (c.allowUnknownOptions = true →
        findInvalidOption (mkCommandInfo c) opts = none
          ∧ runResolved (mkCommandInfo c) opts
              = runValidationTail (mkCommandInfo c) opts) := by
  constructor
  · intro hallow k hk
    have hfind : findInvalidOption (mkCommandInfo c) opts = some k :=
      (firstUnknownKeySpec_eq c opts hnames hallow).trans hk
    constructor
    · rw [runResolved, hfind]
    · rw [runResolved, hfind]
      rfl
  · intro hallow
    have hnone : findInvalidOption (mkCommandInfo c) opts = none := by
      rw [findInvalidOption, if_pos (by simp [mkCommandInfo, hallow])]
    exact ⟨hnone, by rw [runResolved, hnone]⟩

/-! ## Required options, custom validation, dispatch (C3, C9, C6) -/

theorem actionInvoked_runAction (info : CommandInfo) (opts : OptionsMap) :
    actionInvoked (runAction info opts) = true := by
  rcases h : info.command.action opts with _ | err <;> simp [runAction, h, actionInvoked]

/-- C3: omitting a declared required option (its canonical name reads as
`undefined` in the parsed options) always produces a fatal validation
error before dispatch, and the action is never invoked. -/
theorem claim_C3_required (c : Command) (opts : OptionsMap) (o : CommandOption)
    (ho : o ∈ (mkCommandInfo c).options) (hreq : o.required = true)
    (hmiss : getOpt opts o.name = .undefined) :
    actionInvoked (runResolved (mkCommandInfo c) opts) = false
      ∧ ∃ msg help, runResolved (mkCommandInfo c) opts
          = .fatalBeforeAction msg 1 help := by
  rw [runResolved]
  match hfi : findInvalidOption (mkCommandInfo c) opts with
  | some k => exact ⟨rfl, _, _, rfl⟩
  | none =>
    rw [runValidationTail]
    have hsome : (List.find? (fun o => o.required && isUndefined (getOpt opts o.name))
        (mkCommandInfo c).options).isSome = true := by
      rw [List.find?_isSome]
      exact ⟨o, ho, by simp [hreq, hmiss, isUndefined]⟩
    match hfm : List.find? (fun o => o.required && isUndefined (getOpt opts o.name))
        (mkCommandInfo c).options with
    | some o' =>
      have hmr : findMissingRequired (mkCommandInfo c) opts = some o'.name := by
        rw [findMissingRequired, hfm]
        rfl
      rw [hmr]
      exact ⟨rfl, _, _, rfl⟩
    | none => rw [hfm] at hsome; simp at hsome

/-- C9: with the earlier checks passing and a validation function present,
a fatal validation error occurs exactly when the function returns a
string (that string being the error); any non-string result, the boolean
`false` included, lets dispatch proceed to the action. -/
theorem claim_C9_validate (c : Command) (opts : OptionsMap) (f : OptionsMap → JsValue)
    (h1 : findInvalidOption (mkCommandInfo c) opts = none)
    (h2 : findMissingRequired (mkCommandInfo c) opts = none)
    (hv : c.validate = some f) :
    (∀ s, f opts = .str s →
        runResolved (mkCommandInfo c) opts = .fatalBeforeAction s 1 true)
    ∧ ((∀ s, f opts ≠ .str s) →
        runResolved (mkCommandInfo c) opts = runAction (mkCommandInfo c) opts
          ∧ actionInvoked (runResolved (mkCommandInfo c) opts) = true)
    ∧ ((∃ m e h', runResolved (mkCommandInfo c) opts = .fatalBeforeAction m e h') →
        ∃ s, f opts = .str s) := by
  have hrun : runResolved (mkCommandInfo c) opts
      = match f opts with
        | .str s => .fatalBeforeAction s 1 true
        | _ => runAction (mkCommandInfo c) opts := by
    rw [runResolved, h1, runValidationTail, h2]
    rw [show (mkCommandInfo c).command = c from rfl, hv]
  refine ⟨?_, ?_, ?_⟩
  · intro s hs
    rw [hrun, hs]
  · intro hns
    have hred : runResolved (mkCommandInfo c) opts = runAction (mkCommandInfo c) opts := by
      rw [hrun]
      match hfv : f opts with
      | .str s => exact absurd hfv (hns s)
      | .undefined => rfl
      | .null => rfl
      | .boolean b => rfl
      | .num n => rfl
      | .arr xs => rfl
      | .obj fs => rfl
      | .date a b => rfl
    rw [hred]
    exact ⟨rfl, actionInvoked_runAction _ _⟩
  · rintro ⟨m, e, h', hfatal⟩
    match hfv : f opts with
    | .str s => exact ⟨s, rfl⟩
    | .undefined =>
      rw [hrun, hfv] at hfatal
      have h3 : runAction (mkCommandInfo c) opts = .fatalBeforeAction m e h' := hfatal
      have h4 := actionInvoked_runAction (mkCommandInfo c) opts
      rw [h3] at h4
      simp [actionInvoked] at h4
    | .null =>
      rw [hrun, hfv] at hfatal
      have h3 : runAction (mkCommandInfo c) opts = .fatalBeforeAction m e h' := hfatal
      have h4 := actionInvoked_runAction (mkCommandInfo c) opts
      rw [h3] at h4
      simp [actionInvoked] at h4
    | .boolean b =>
      rw [hrun, hfv] at hfatal
      have h3 : runAction (mkCommandInfo c) opts = .fatalBeforeAction m e h' := hfatal
      have h4 := actionInvoked_runAction (mkCommandInfo c) opts
      rw [h3] at h4
      simp [actionInvoked] at h4
    | .num n =>
      rw [hrun, hfv] at hfatal
      have h3 : runAction (mkCommandInfo c) opts = .fatalBeforeAction m e h' := hfatal
      have h4 := actionInvoked_runAction (mkCommandInfo c) opts
      rw [h3] at h4
      simp [actionInvoked] at h4
    | .arr xs =>
      rw [hrun, hfv] at hfatal
      have h3 : runAction (mkCommandInfo c) opts = .fatalBeforeAction m e h' := hfatal
      have h4 := actionInvoked_runAction (mkCommandInfo c) opts
      rw [h3] at h4
      simp [actionInvoked] at h4
    | .obj fs =>
      rw [hrun, hfv] at hfatal
      have h3 : runAction (mkCommandInfo c) opts = .fatalBeforeAction m e h' := hfatal
      have h4 := actionInvoked_runAction (mkCommandInfo c) opts
      rw [h3] at h4
      simp [actionInvoked] at h4
    | .date a b =>
      rw [hrun, hfv] at hfatal
      have h3 : runAction (mkCommandInfo c) opts = .fatalBeforeAction m e h' := hfatal
      have h4 := actionInvoked_runAction (mkCommandInfo c) opts
      rw [h3] at h4
      simp [actionInvoked] at h4

/-- The command's validation, if any, does not produce a string on these
options. -/
def validatePasses (c : Command) (opts : OptionsMap) : Prop :=
  match c.validate with
  | none => True
  | some f => ∀ s, f opts ≠ .str s

/-- C6 (amended): when the action's callback receives no error the process
exits 0; when it receives an error carrying a nonzero numeric code the
process reports it and exits with that code; an absent code — or a
declared code of 0, which the truthiness test treats as absent — yields
the generic failure code 1. -/
theorem claim_C6_amended (c : Command) (opts : OptionsMap)
    (h1 : findInvalidOption (mkCommandInfo c) opts = none)
    (h2 : findMissingRequired (mkCommandInfo c) opts = none)
    (hv : validatePasses c opts) :
    (c.action opts = none → runResolved (mkCommandInfo c) opts = .exitZero)
    ∧ (∀ err n, c.action opts = some err → err.code = some n → n ≠ 0 →
        runResolved (mkCommandInfo c) opts = .errorAfterAction err.message n)
    ∧ (∀ err, c.action opts = some err → (err.code = none ∨ err.code = some 0) →
        runResolved (mkCommandInfo c) opts = .errorAfterAction err.message 1) := by
  have hrun : runResolved (mkCommandInfo c) opts = runAction (mkCommandInfo c) opts := by
    rw [runResolved, h1, runValidationTail, h2,
      show (mkCommandInfo c).command = c from rfl]
    match hcv : c.validate with
    | none => rfl
    | some f =>
      rw [validatePasses, hcv] at hv
      show (match f opts with
        | JsValue.str s => RunOutcome.fatalBeforeAction s 1 true
        | _ => runAction (mkCommandInfo c) opts) = runAction (mkCommandInfo c) opts
      match hfv : f opts with
      | .str s => exact absurd hfv (hv s)
      | .undefined => rfl
      | .null => rfl
      | .boolean b => rfl
      | .num n => rfl
      | .arr xs => rfl
      | .obj fs => rfl
      | .date a b => rfl
  refine ⟨?_, ?_, ?_⟩
  · intro ha
    rw [hrun, runAction, show (mkCommandInfo c).command = c from rfl, ha]
  · intro err n ha hcode hn
    rw [hrun, runAction, show (mkCommandInfo c).command = c from rfl, ha]
    simp [commandErrorExitCode, hcode, hn]
  · intro err ha hcode
    rw [hrun, runAction, show (mkCommandInfo c).command = c from rfl, ha]
    rcases hcode with h | h <;> simp [commandErrorExitCode, h]

/-! ## Concrete commands for pipeline witnesses -/

def exDemoCmd : Command :=
  { name := "demo", aliases := none,
    optionDecls := [OptionDecl.mk "-u, --url <url>" none],
    allowUnknownOptions := false, validate := none, action := fun _ => none }

def exValidateFalseCmd : Command :=
  { name := "vdemo", aliases := none, optionDecls := [],
    allowUnknownOptions := false,
    validate := some (fun _ => .boolean false), action := fun _ => none }

def exErrZeroCmd : Command :=
  { name := "edemo", aliases := none, optionDecls := [],
    allowUnknownOptions := false, validate := none,
    action := fun _ => some (CommandError.mk "fail" (some 0)) }

def exErrThreeCmd : Command :=
  { name := "edemo3", aliases := none, optionDecls := [],
    allowUnknownOptions := false, validate := none,
    action := fun _ => some (CommandError.mk "boom" (some 3)) }

/-- C2 witness: an undeclared `--force` flag is fatal before the action. -/
theorem claim_C2_witness :
    runResolved (mkCommandInfo exDemoCmd) [("_", .arr []), ("force", .boolean true),
        ("url", .str "x")]
      = .fatalBeforeAction (invalidOptionMsg "force") 1 true
    ∧ actionInvoked (runResolved (mkCommandInfo exDemoCmd) [("_", .arr []),
        ("force", .boolean true), ("url", .str "x")]) = false :=
  (claim_C2_unknown_options exDemoCmd
      [("_", .arr []), ("force", .boolean true), ("url", .str "x")]
      (by decide)).1 rfl "force" (by decide)

/-- C3 witness: omitting the required `url` option is fatal and skips the
action. -/
theorem claim_C3_witness :
    actionInvoked (runResolved (mkCommandInfo exDemoCmd) [("_", .arr [])]) = false
    ∧ ∃ msg help, runResolved (mkCommandInfo exDemoCmd) [("_", .arr [])]
        = .fatalBeforeAction msg 1 help :=
  claim_C3_required exDemoCmd [("_", .arr [])]
    (CommandOption.mk none (some "url") "url" true (some "u"))
    (by decide) (by decide) (by rfl)

/-- C9 witness: a validation function returning the boolean `false` passes
and dispatch reaches the action. -/
theorem claim_C9_witness :
    runResolved (mkCommandInfo exValidateFalseCmd) [("_", .arr [])]
        = runAction (mkCommandInfo exValidateFalseCmd) [("_", .arr [])]
    ∧ actionInvoked (runResolved (mkCommandInfo exValidateFalseCmd) [("_", .arr [])])
        = true :=
  ((claim_C9_validate exValidateFalseCmd [("_", .arr [])] (fun _ => .boolean false)
      (by decide) (by rfl) rfl).2.1) (fun s h => by cases h)

/-- C6 (counterexample): an action error that declares the numeric exit
code 0 does not make the process exit 0 — the truthiness test on
`error.code` discards it and the process exits 1. -/
theorem claim_C6_counterexample :
    exErrZeroCmd.action [] = some (CommandError.mk "fail" (some 0))
    ∧ runResolved (mkCommandInfo exErrZeroCmd) [] = .errorAfterAction "fail" 1
    ∧ (1 : Nat) ≠ 0 :=
  ⟨rfl, rfl, by decide⟩

/-- C6 witness: a nonzero declared code is used; exercised at code 3, and
the no-error path exits 0. -/
theorem claim_C6_witness :
    runResolved (mkCommandInfo exErrThreeCmd) [] = .errorAfterAction "boom" 3
    ∧ runResolved (mkCommandInfo exDemoCmd) [("_", .arr []), ("url", .str "x")]
        = .exitZero :=
  ⟨(claim_C6_amended exErrThreeCmd [] (by rfl) (by rfl) trivial).2.1
      (CommandError.mk "boom" (some 3)) 3 rfl rfl (by decide),
    (claim_C6_amended exDemoCmd [("_", .arr []), ("url", .str "x")]
      (by decide) (by rfl) trivial).1 rfl⟩

/-! ## Renderer claims (C10, C8, C7) -/

/-- C10: a `Date` value renders as its default string form whatever the
options say — the `Date` branch of the renderer precedes both the query
filter and the `json` output branch, so neither applies. -/
theorem claim_C10_date (search : JsValue → JsValue → JsValue)
    (tbl : List JsValue → String) (s j : String) (opts : OptionsMap) :
    logOutput search tbl (.date s j) opts = .str s := rfl

/-- C8: for a JSON-representable, non-`undefined`, non-`Date` value
rendered with output format `json`, the produced text deserializes back to
a value deep-equal to the input after the query filter (applied when the
query option is truthy and help is not requested). -/
theorem claim_C8_json_roundtrip (search : JsValue → JsValue → JsValue)
    (tbl : List JsValue → String) (v : JsValue) (opts : OptionsMap)
    (hout : getOpt opts "output" = .str "json")
    (hv : jsonOk v = true)
    (hw : jsonOk (appliedQuery search v opts) = true) :
    ∃ s, logOutput search tbl v opts = .str s
      ∧ jsonParse (sizeV (appliedQuery search v opts)) s
          = some (appliedQuery search v opts) := by
  obtain ⟨cs, hcs, hparse⟩ := prettyV_jsonParse_roundtrip (appliedQuery search v opts) hw
  refine ⟨String.mk cs, ?_, hparse⟩
  cases v
  case undefined => simp [jsonOk] at hv
  case date => simp [jsonOk] at hv
  all_goals
    simp only [logOutput]
    rw [if_neg (by simp [jsTypeof])]
    rw [hout]
    rw [if_pos (by decide)]
    rw [hcs]

/-- C8 witness: a concrete nested value rendered as json round-trips. -/
theorem claim_C8_witness :
    ∃ s, logOutput (fun x _ => x) (fun _ => "")
        (.obj [("a", .arr [.num 1, .num 2]), ("b", .str "x")])
        [("output", .str "json")] = .str s
      ∧ jsonParse (sizeV (appliedQuery (fun x _ => x)
            (.obj [("a", .arr [.num 1, .num 2]), ("b", .str "x")])
            [("output", .str "json")])) s
          = some (appliedQuery (fun x _ => x)
              (.obj [("a", .arr [.num 1, .num 2]), ("b", .str "x")])
              [("output", .str "json")]) :=
  claim_C8_json_roundtrip (fun x _ => x) (fun _ => "")
    (.obj [("a", .arr [.num 1, .num 2]), ("b", .str "x")])
    [("output", .str "json")] rfl (by decide) (by decide)

theorem length_insertStr (s : String) (l : List String) :
    (insertStr s l).length = l.length + 1 := by
  induction l with
  | nil => rfl
  | cons t ts ih => by_cases h : strLe s t = true <;> simp [insertStr, h, ih]

theorem length_sortStrings (l : List String) : (sortStrings l).length = l.length := by
  induction l with
  | nil => rfl
  | cons t ts ih => simp [sortStrings, length_insertStr, ih]

/-- Modelled from the spec: the single-object rendering as the claim words
it — keys sorted, each key left-padded (spaces before the key) to the
longest key's width, colon-separated, one line per own property. -/
def renderObjBlockSpecLeftPad (fields : List (String × JsValue)) : String :=
  let keys := fields.map fun p => p.1
  let longest := longestLen keys
  joinSep "\n" ((sortStrings keys).map fun p =>
    (if p.length < longest then String.mk (List.replicate (longest - p.length) ' ') ++ p
     else p) ++ ": " ++ inlineVal (jsGetProp (.obj fields) p)) ++ "\n"

/-- The string a renderer result carries (`JsValue.str`), or empty. -/
def strOf : JsValue → String
  | .str s => s
  | _ => ""

/-- C7 (counterexample): for `\x7bA: 1, BB: 2\x7d` the rendered first line is
`A : 1` — the key is left-aligned, padded on the right — not the
left-padded ` A: 1` the claim's wording prescribes. -/
theorem claim_C7_counterexample :
    strOf (logOutput (fun x _ => x) (fun _ => "")
        (.obj [("A", .num 1), ("BB", .num 2)]) []) = "A : 1\nBB: 2\n"
    ∧ renderObjBlockSpecLeftPad [("A", .num 1), ("BB", .num 2)] = " A: 1\nBB: 2\n"
    ∧ ("A : 1\nBB: 2\n" : String) ≠ " A: 1\nBB: 2\n" :=
  ⟨by decide, by decide, by decide⟩

/-- C7 (amended): for every value that normalizes to a single-element
array holding a plain object, text rendering (query unset, output not
`json`) produces one `key: value` line per own property, keys sorted
lexicographically and left-aligned — padded on the right to the width of
the longest key — with nested objects/arrays JSON-stringified inline and
a trailing newline. -/
theorem claim_C7_amended (search : JsValue → JsValue → JsValue)
    (tbl : List JsValue → String) (v : JsValue) (fields : List (String × JsValue))
    (opts : OptionsMap)
    (hv : v = .obj fields ∨ v = .arr [.obj fields])
    (hq : truthy (getOpt opts "query") = false)
    (hout : isJsonStr (getOpt opts "output") = false) :
    logOutput search tbl v opts
      = .str (joinSep "\n" ((sortStrings (fields.map fun p => p.1)).map fun p =>
          padKeyTo p (longestLen (fields.map fun p => p.1)) ++ ": "
            ++ inlineVal (jsGetProp (.obj fields) p)) ++ "\n")
    ∧ (sortStrings (fields.map fun p => p.1)).length = fields.length := by
  refine ⟨?_, by rw [length_sortStrings, List.length_map]⟩
  have happ : ∀ w, appliedQuery search w opts = w := by
    intro w
    rw [appliedQuery, hq]
    simp
  rcases hv with rfl | rfl
  · simp only [logOutput]
    rw [if_neg (by simp [jsTypeof])]
    rw [happ, if_neg (by simp [hout])]
    simp only [jsTypeof]
    rw [if_neg (by simp)]
    simp [renderObjBlock, ownPropertyNames]
  · simp only [logOutput]
    rw [if_neg (by simp [jsTypeof])]
    rw [happ, if_neg (by simp [hout])]
    simp only [firstDefinedType, jsTypeof]
    rw [if_neg (by simp [List.find?])]
    simp [List.find?, renderObjBlock, ownPropertyNames]

/-- C7 witness: the amended rendering rule applied to a concrete
single-object array. -/
theorem claim_C7_witness :
    logOutput (fun x _ => x) (fun _ => "TBL")
        (.arr [.obj [("BB", .num 2), ("A", .str "hi")]]) []
      = .str (joinSep "\n"
          ((sortStrings (([("BB", JsValue.num 2), ("A", JsValue.str "hi")]).map
              fun p => p.1)).map fun p =>
            padKeyTo p (longestLen (([("BB", JsValue.num 2),
                ("A", JsValue.str "hi")]).map fun p => p.1)) ++ ": "
              ++ inlineVal (jsGetProp
                  (.obj [("BB", JsValue.num 2), ("A", JsValue.str "hi")]) p)) ++ "\n")
    ∧ (sortStrings (([("BB", JsValue.num 2), ("A", JsValue.str "hi")]).map
          fun p => p.1)).length
        = ([("BB", JsValue.num 2), ("A", JsValue.str "hi")]
            : List (String × JsValue)).length :=
  claim_C7_amended (fun x _ => x) (fun _ => "TBL") _
    [("BB", JsValue.num 2), ("A", JsValue.str "hi")] [] (Or.inr rfl) rfl rfl
